import Mathlib

/-!
Verification of the goradieschen in-memory key-value server.

This file gives a shallow embedding, in Lean 4, of the three core components
of the repository:

* the TTL scheduler (`ttlstore` package): a `container/heap` min-heap of
  `TTLItem` paired with a key-to-item map, with operations `SetTTL`, `GetTTL`,
  `FlushAll` and the expired-item drain loop of the background worker `run`;
* the RESP2 wire codec (`protocol/resp2.go`): `DecodeCommand` and the
  `Encode*` reply encoders;
* the command dispatcher (`protocol.ParseCommand`, RESP version).

Modelling conventions:

* Go `time.Time` / `time.Duration` values are embedded as `Int` nanoseconds.
* Go byte strings handled by the codec are embedded as `List Char`, one `Char`
  per byte; strings appearing as map keys and values stay Lean `String`s.
* Go's `container/heap` keeps, inside each heap element, an `index` field that
  always equals the element's current slot in the backing slice (`Swap`
  rewrites the field on every exchange).  The map `entries` of the Go code
  stores pointers to those shared items.  In the embedding, the entries map
  stores the index directly, and `swapState` rewrites the stored index of the
  two affected keys -- exactly the bookkeeping Go's `Swap` performs on the
  shared items.
* The sift loops `up` and `down` of `container/heap`, and the drain loop of
  `run`, are embedded with an explicit fuel argument so that they are
  structurally recursive (and hence compute inside the kernel).  Each loop
  strictly decreases a measure bounded by the supplied fuel (`up` moves to the
  parent index, `down` moves to a child index below `n`, the drain removes one
  heap element), so the fuel never runs out and the functions agree with the
  unbounded Go loops.
-/

namespace Goradieschen

/-- One pending expiration, as in Go's `ttlstore.TTLItem`.  The Go struct's
`index` field is not part of the item here: it is represented by the value the
`entries` map stores for the item's key (see `swapState`). -/
structure TTLItem where
  key : String
  expiresAt : Int
deriving DecidableEq

/-- The key-to-item map of `ttlstore.TTLStore`, as an association list from a
key to the heap index of its item (the item's Go-side `index` field). -/
abbrev Entries := List (String × Nat)

/-- The heap+map state of `ttlstore.TTLStore` (the mutex, channels and
callback of the Go struct have no counterpart in the sequential embedding). -/
structure TTLStore where
  heap : List TTLItem
  entries : Entries
deriving DecidableEq

/-- Heap slot access `h[i]`.  Out-of-range access would panic in Go; the
embedding totalizes it with a dummy item (every verified invariant keeps all
used indices in range). -/
def getI (l : List TTLItem) (i : Nat) : TTLItem :=
  l.getD i ⟨"", 0⟩

/-- Go map read `s.entries[key]` (with its `exists` flag as `Option`). -/
def lookupIdx : Entries → String → Option Nat
  | [], _ => none
  | (k, v) :: t, key => if k = key then some v else lookupIdx t key

/-- Rewriting the `index` field of the item registered under `k` (a no-op when
no item is registered for `k`, matching an index write through a pointer that
the map does not hold). -/
def setIdx (E : Entries) (k : String) (v : Nat) : Entries :=
  E.map fun p => if p.1 = k then (k, v) else p

/-- Go map deletion `delete(s.entries, key)`. -/
def eraseKey (E : Entries) (k : String) : Entries :=
  E.filter fun p => p.1 != k

/-- Go map write `s.entries[key] = item`. -/
def insertKey (E : Entries) (k : String) (v : Nat) : Entries :=
  (k, v) :: eraseKey E k

/-- `TTLHeap.Swap`: exchange slots `i` and `j` and rewrite the `index` fields
of the two items now at `i` and `j`.  Go would panic on an out-of-range slot;
the embedding leaves the state unchanged then. -/
def swapState (s : TTLStore) (i j : Nat) : TTLStore :=
  if i < s.heap.length ∧ j < s.heap.length then
    let a := getI s.heap i
    let b := getI s.heap j
    { heap := (s.heap.set i b).set j a,
      entries := setIdx (setIdx s.entries b.key i) a.key j }
  else s

/-- `TTLHeap.Less i j`: comparison by expiration time (`time.Time.Before`). -/
def lessAt (s : TTLStore) (i j : Nat) : Prop :=
  (getI s.heap i).expiresAt < (getI s.heap j).expiresAt

instance (s : TTLStore) (i j : Nat) : Decidable (lessAt s i j) :=
  inferInstanceAs (Decidable (_ < _))

/-- The parent slot `(j - 1) / 2` of the implicit binary tree, as computed by
`container/heap`'s `up` (Go's `(j - 1) / 2` on ints equals this for `j = 0`
too, since `-1 / 2 == 0` in Go). -/
def parentIdx (j : Nat) : Nat :=
  (j - 1) / 2

/-- `container/heap`'s `up` sift loop, returning the final position of the
sifted element (the Go item's `index` field after the loop).  `fuel` bounds
the iteration count; the position moves to the strictly smaller parent index
each round, so fuel `j + 1` is always enough (see `up`). -/
def upF : Nat → TTLStore → Nat → TTLStore × Nat
  | 0, s, j => (s, j)
  | fuel + 1, s, j =>
    let i := parentIdx j
    if i = j then (s, j)
    else if lessAt s j i then upF fuel (swapState s i j) i
    else (s, j)

/-- `container/heap`'s `up`, with ample fuel. -/
def up (s : TTLStore) (j : Nat) : TTLStore × Nat :=
  upF (j + 1) s j

/-- `container/heap`'s `down` sift loop on the prefix `[0, n)`, returning the
final position (Go's `down` returns `i > i0`, recovered from the position).
The position moves to a child index `< n` each round, so fuel `n - i` is
always enough (see `down`). -/
def downF : Nat → TTLStore → Nat → Nat → TTLStore × Nat
  | 0, s, i, _ => (s, i)
  | fuel + 1, s, i, n =>
    let j1 := 2 * i + 1
    if n ≤ j1 then (s, i)
    else
      let j := if 2 * i + 2 < n ∧ lessAt s (2 * i + 2) j1 then 2 * i + 2 else j1
      if lessAt s j i then downF fuel (swapState s i j) j n
      else (s, i)

/-- `container/heap`'s `down`, with ample fuel. -/
def down (s : TTLStore) (i n : Nat) : TTLStore × Nat :=
  downF (n - i) s i n

/-- `heap.Push`: append the item (its `index` field set to the old length, by
position) and sift up.  Returns the pushed item's final position. -/
def heapPush (s : TTLStore) (item : TTLItem) : TTLStore × Nat :=
  let s1 : TTLStore := { s with heap := s.heap ++ [item] }
  up s1 s.heap.length

/-- `heap.Remove(h, i)`: swap slot `i` with the last slot, restore heap order
with `down` (then `up` when `down` did not move), and pop the last slot.
The removed item's map entry is untouched here -- `SetTTL` deletes it right
after, as the Go code does. -/
def heapRemove (s : TTLStore) (i : Nat) : TTLStore :=
  let n := s.heap.length - 1
  let s1 :=
    if i ≠ n then
      let s2 := swapState s i n
      let d := down s2 i n
      if i < d.2 then d.1 else (up d.1 i).1
    else s
  { s1 with heap := s1.heap.dropLast }

/-- `heap.Pop`: swap the root with the last slot, sift the new root down over
the prefix, and remove the last slot, returning the removed item (the old
minimum). -/
def heapPop (s : TTLStore) : TTLItem × TTLStore :=
  let n := s.heap.length - 1
  let s1 := swapState s 0 n
  let s2 := (down s1 0 n).1
  (getI s2.heap n, { s2 with heap := s2.heap.dropLast })

/-- `TTLStore.SetTTL`: if the key already has an entry, remove it from the
heap (by its stored index) and from the map; then push a fresh item and
register its final position under the key.  The wake-channel send of the Go
code has no sequential counterpart. -/
def SetTTL (s : TTLStore) (key : String) (expiresAt : Int) : TTLStore :=
  let s1 :=
    match lookupIdx s.entries key with
    | some oldIdx =>
      let r := heapRemove s oldIdx
      { r with entries := eraseKey r.entries key }
    | none => s
  let p := heapPush s1 { key := key, expiresAt := expiresAt }
  { p.1 with entries := insertKey p.1.entries key p.2 }

/-- `TTLStore.GetTTL`: map lookup; `(time.Time{}, false)` becomes `none`. -/
def GetTTL (s : TTLStore) (key : String) : Option Int :=
  (lookupIdx s.entries key).map fun i => (getI s.heap i).expiresAt

/-- `TTLStore.FlushAll`: replace heap and map by empty structures
(`heap.Init` on an empty heap is a no-op). -/
def FlushAll (_ : TTLStore) : TTLStore :=
  { heap := [], entries := [] }

/-- The expired-item drain loop of the background worker `run` (step 3):
while the heap is non-empty and its minimum is not after `now`, pop the
minimum, delete its map entry, and emit its key to the deletion callback.
The emitted list records the callback dispatch order.  Fuel: each round
removes one heap element, so the heap length is always enough (see `drain`).
The Go loop re-reads `time.Now()` each round; the embedding fixes the single
instant `now` for the whole drain batch, which runs under the store lock. -/
def drainF : Nat → TTLStore → Int → TTLStore × List TTLItem
  | 0, s, _ => (s, [])
  | fuel + 1, s, now =>
    if s.heap.length = 0 ∨ now < (getI s.heap 0).expiresAt then (s, [])
    else
      let p := heapPop s
      let s2 := { p.2 with entries := eraseKey p.2.entries p.1.key }
      let r := drainF fuel s2 now
      (r.1, p.1 :: r.2)

/-- One drain batch of the background worker, with ample fuel. -/
def drain (s : TTLStore) (now : Int) : TTLStore × List TTLItem :=
  drainF s.heap.length s now

/-- The freshly constructed scheduler state of `NewTTLStore`. -/
def initTTL : TTLStore :=
  { heap := [], entries := [] }

/-- The operations a client or the worker can apply to the scheduler state:
`SetTTL`, one expiration drain batch (at a given instant), `FlushAll`. -/
inductive Op
  | setTTL (key : String) (expiresAt : Int)
  | drainOp (now : Int)
  | flushAll
deriving DecidableEq

/-- Apply one operation; drains accumulate the fired items (callback
dispatches) into the trace. -/
def stepOp : TTLStore × List TTLItem → Op → TTLStore × List TTLItem
  | (s, F), .setTTL k e => (SetTTL s k e, F)
  | (s, F), .drainOp now =>
    let d := drain s now
    (d.1, F ++ d.2)
  | (s, F), .flushAll => (FlushAll s, F)

/-- Run a sequence of operations from the fresh scheduler. -/
def exec (ops : List Op) : TTLStore × List TTLItem :=
  ops.foldl stepOp (initTTL, [])

/-! ### Association-list and slot-access lemmas -/

theorem lookupIdx_cons (pk : String) (pv : Nat) (t : Entries) (q : String) :
    lookupIdx ((pk, pv) :: t) q = if pk = q then some pv else lookupIdx t q := rfl

theorem setIdx_cons_eq (pk : String) (pv : Nat) (t : Entries) (k : String) (v : Nat)
    (h : pk = k) : setIdx ((pk, pv) :: t) k v = (k, v) :: setIdx t k v := by
  simp [setIdx, h]

theorem setIdx_cons_ne (pk : String) (pv : Nat) (t : Entries) (k : String) (v : Nat)
    (h : ¬pk = k) : setIdx ((pk, pv) :: t) k v = (pk, pv) :: setIdx t k v := by
  simp [setIdx, h]

theorem eraseKey_cons_eq (pk : String) (pv : Nat) (t : Entries) (k : String)
    (h : pk = k) : eraseKey ((pk, pv) :: t) k = eraseKey t k := by
  simp [eraseKey, h]

theorem eraseKey_cons_ne (pk : String) (pv : Nat) (t : Entries) (k : String)
    (h : ¬pk = k) : eraseKey ((pk, pv) :: t) k = (pk, pv) :: eraseKey t k := by
  simp [eraseKey, h]

theorem lookupIdx_setIdx (E : Entries) (k : String) (v : Nat) (q : String) :
    lookupIdx (setIdx E k v) q =
      if q = k then (lookupIdx E q).map (fun _ => v) else lookupIdx E q := by
  induction E with
  | nil => simp [lookupIdx, setIdx]
  | cons p t ih =>
    obtain ⟨pk, pv⟩ := p
    by_cases hpk : pk = k
    · rw [setIdx_cons_eq pk pv t k v hpk, lookupIdx_cons, lookupIdx_cons, ih]
      subst hpk
      by_cases hq : pk = q
      · subst hq
        simp
      · simp [hq, Ne.symm hq]
    · rw [setIdx_cons_ne pk pv t k v hpk, lookupIdx_cons, lookupIdx_cons, ih]
      by_cases hq : pk = q
      · subst hq
        simp [hpk, Ne.symm hpk]
      · simp [hq]

theorem lookupIdx_eraseKey (E : Entries) (k : String) (q : String) :
    lookupIdx (eraseKey E k) q = if q = k then none else lookupIdx E q := by
  induction E with
  | nil => simp [lookupIdx, eraseKey]
  | cons p t ih =>
    obtain ⟨pk, pv⟩ := p
    by_cases hpk : pk = k
    · rw [eraseKey_cons_eq pk pv t k hpk, lookupIdx_cons, ih]
      subst hpk
      by_cases hq : q = pk
      · simp [hq]
      · simp [hq, Ne.symm hq]
    · rw [eraseKey_cons_ne pk pv t k hpk, lookupIdx_cons, lookupIdx_cons, ih]
      by_cases hq : pk = q
      · subst hq
        simp [hpk]
      · simp [hq]

theorem lookupIdx_insertKey (E : Entries) (k : String) (v : Nat) (q : String) :
    lookupIdx (insertKey E k v) q = if q = k then some v else lookupIdx E q := by
  by_cases hq : q = k
  · simp [insertKey, lookupIdx, hq, lookupIdx_eraseKey]
  · simp [insertKey, lookupIdx, hq, Ne.symm hq, lookupIdx_eraseKey]

theorem getI_cons_zero (x : TTLItem) (t : List TTLItem) : getI (x :: t) 0 = x := rfl

theorem getI_cons_succ (x : TTLItem) (t : List TTLItem) (m : Nat) :
    getI (x :: t) (m + 1) = getI t m := rfl

theorem getI_set_self (l : List TTLItem) (i : Nat) (a : TTLItem) (h : i < l.length) :
    getI (l.set i a) i = a := by
  induction l generalizing i with
  | nil => simp at h
  | cons x t ih =>
    cases i with
    | zero => rfl
    | succ m => exact ih m (by simpa using h)

theorem getI_set_ne (l : List TTLItem) (i : Nat) (a : TTLItem) (m : Nat) (h : m ≠ i) :
    getI (l.set i a) m = getI l m := by
  induction l generalizing i m with
  | nil => rfl
  | cons x t ih =>
    cases i with
    | zero =>
      cases m with
      | zero => exact absurd rfl h
      | succ m0 => rfl
    | succ i0 =>
      cases m with
      | zero => rfl
      | succ m0 => exact ih i0 m0 (by omega)

theorem getI_append_lt (l l2 : List TTLItem) (m : Nat) (h : m < l.length) :
    getI (l ++ l2) m = getI l m := by
  induction l generalizing m with
  | nil => simp at h
  | cons x t ih =>
    cases m with
    | zero => rfl
    | succ m0 => exact ih m0 (by simpa using h)

theorem getI_append_len (l : List TTLItem) (x : TTLItem) :
    getI (l ++ [x]) l.length = x := by
  induction l with
  | nil => rfl
  | cons y t ih => simpa using ih

theorem getI_dropLast (l : List TTLItem) (m : Nat) (h : m + 1 < l.length) :
    getI l.dropLast m = getI l m := by
  induction l generalizing m with
  | nil => rfl
  | cons x t ih =>
    cases t with
    | nil => simp at h
    | cons y u =>
      cases m with
      | zero => rfl
      | succ m0 =>
        show getI (y :: u).dropLast m0 = getI (y :: u) m0
        exact ih m0 (by simpa using h)

theorem getI_mem (l : List TTLItem) (m : Nat) (h : m < l.length) : getI l m ∈ l := by
  induction l generalizing m with
  | nil => simp at h
  | cons x t ih =>
    cases m with
    | zero => exact List.mem_cons_self x t
    | succ m0 => exact List.mem_cons_of_mem x (ih m0 (by simpa using h))

/-! ### Swap lemmas -/

theorem swap_heap_length (s : TTLStore) (i j : Nat) :
    (swapState s i j).heap.length = s.heap.length := by
  unfold swapState
  split <;> simp

theorem getI_swap_snd (s : TTLStore) (i j : Nat)
    (hi : i < s.heap.length) (hj : j < s.heap.length) :
    getI (swapState s i j).heap j = getI s.heap i := by
  unfold swapState
  rw [if_pos ⟨hi, hj⟩]
  exact getI_set_self _ j _ (by simpa using hj)

theorem getI_swap_fst (s : TTLStore) (i j : Nat)
    (hi : i < s.heap.length) (hj : j < s.heap.length) (hne : i ≠ j) :
    getI (swapState s i j).heap i = getI s.heap j := by
  unfold swapState
  rw [if_pos ⟨hi, hj⟩]
  rw [getI_set_ne _ j _ i hne]
  exact getI_set_self _ i _ hi

theorem getI_swap_other (s : TTLStore) (i j m : Nat) (hmi : m ≠ i) (hmj : m ≠ j) :
    getI (swapState s i j).heap m = getI s.heap m := by
  unfold swapState
  split
  · rw [getI_set_ne _ j _ m hmj, getI_set_ne _ i _ m hmi]
  · rfl

theorem lookupIdx_swap (s : TTLStore) (i j : Nat) (q : String)
    (hi : i < s.heap.length) (hj : j < s.heap.length) :
    lookupIdx (swapState s i j).entries q =
      if q = (getI s.heap i).key then (lookupIdx s.entries q).map (fun _ => j)
      else if q = (getI s.heap j).key then (lookupIdx s.entries q).map (fun _ => i)
      else lookupIdx s.entries q := by
  unfold swapState
  rw [if_pos ⟨hi, hj⟩]
  show lookupIdx (setIdx (setIdx s.entries _ i) _ j) q = _
  rw [lookupIdx_setIdx, lookupIdx_setIdx]
  by_cases h1 : q = (getI s.heap i).key
  · rw [if_pos h1, if_pos h1]
    by_cases h2 : q = (getI s.heap j).key
    · rw [if_pos h2, Option.map_map]
      rfl
    · rw [if_neg h2]
  · rw [if_neg h1, if_neg h1]

/-! ### The map-heap consistency invariant -/

/-- Every key registered in the map points at an in-range heap slot holding
the item with that key. -/
def goodMap (s : TTLStore) : Prop :=
  ∀ k i, lookupIdx s.entries k = some i →
    i < s.heap.length ∧ (getI s.heap i).key = k

/-- Every heap slot's item is registered in the map under its key, at exactly
that slot. -/
def goodHeap (s : TTLStore) : Prop :=
  ∀ j, j < s.heap.length → lookupIdx s.entries ((getI s.heap j).key) = some j

/-- Mutual consistency of the map and the heap. -/
def good (s : TTLStore) : Prop :=
  goodMap s ∧ goodHeap s

theorem good_key_ne (s : TTLStore) (hg : good s) (i j : Nat)
    (hi : i < s.heap.length) (hj : j < s.heap.length) (hne : i ≠ j) :
    (getI s.heap i).key ≠ (getI s.heap j).key := by
  intro contra
  have h1 := hg.2 i hi
  have h2 := hg.2 j hj
  rw [contra, h2] at h1
  exact hne (Option.some.inj h1).symm

theorem swap_good (s : TTLStore) (i j : Nat) (hg : good s) :
    good (swapState s i j) := by
  by_cases hb : i < s.heap.length ∧ j < s.heap.length
  · obtain ⟨hi, hj⟩ := hb
    have hLa := hg.2 i hi
    have hLb := hg.2 j hj
    constructor
    · intro k m hm
      rw [lookupIdx_swap s i j k hi hj] at hm
      by_cases h1 : k = (getI s.heap i).key
      · rw [if_pos h1, h1, hLa] at hm
        have hmj : m = j := (Option.some.inj hm).symm
        rw [hmj]
        refine ⟨by rw [swap_heap_length]; exact hj, ?_⟩
        rw [getI_swap_snd s i j hi hj]
        exact h1.symm
      · rw [if_neg h1] at hm
        by_cases h2 : k = (getI s.heap j).key
        · rw [if_pos h2, h2, hLb] at hm
          have hmi : m = i := (Option.some.inj hm).symm
          have hij : i ≠ j := by
            intro e
            rw [e] at h1
            exact h1 h2
          rw [hmi]
          refine ⟨by rw [swap_heap_length]; exact hi, ?_⟩
          rw [getI_swap_fst s i j hi hj hij]
          exact h2.symm
        · rw [if_neg h2] at hm
          obtain ⟨hmlt, hkey⟩ := hg.1 k m hm
          have hmi : m ≠ i := by
            intro e
            subst e
            exact h1 hkey.symm
          have hmj : m ≠ j := by
            intro e
            subst e
            exact h2 hkey.symm
          refine ⟨by rw [swap_heap_length]; exact hmlt, ?_⟩
          rw [getI_swap_other s i j m hmi hmj]
          exact hkey
    · intro m hm
      rw [swap_heap_length] at hm
      by_cases hmj : m = j
      · rw [hmj, getI_swap_snd s i j hi hj, lookupIdx_swap s i j _ hi hj, if_pos rfl, hLa]
        rfl
      · by_cases hmi : m = i
        · have hij : i ≠ j := fun e => hmj (hmi.trans e)
          rw [hmi, getI_swap_fst s i j hi hj hij, lookupIdx_swap s i j _ hi hj,
            if_neg (good_key_ne s hg j i hj hi (Ne.symm hij)), if_pos rfl, hLb]
          rfl
        · rw [getI_swap_other s i j m hmi hmj, lookupIdx_swap s i j _ hi hj,
            if_neg (good_key_ne s hg m i hm hi hmi),
            if_neg (good_key_ne s hg m j hm hj hmj)]
          exact hg.2 m hm
  · unfold swapState
    rw [if_neg hb]
    exact hg

/-- Consistency with one excepted heap slot `p`, holding item `it`, whose key
is absent from the map: the state during `heap.Push`'s sift-up, before
`SetTTL` registers the pushed item. -/
def goodEx (s : TTLStore) (p : Nat) (it : TTLItem) : Prop :=
  p < s.heap.length ∧ getI s.heap p = it ∧ lookupIdx s.entries it.key = none ∧
  (∀ k i, lookupIdx s.entries k = some i →
    i < s.heap.length ∧ i ≠ p ∧ (getI s.heap i).key = k) ∧
  (∀ j, j < s.heap.length → j ≠ p → lookupIdx s.entries ((getI s.heap j).key) = some j)

theorem goodEx_key_ne (s : TTLStore) (p : Nat) (it : TTLItem) (hg : goodEx s p it)
    (j : Nat) (hj : j < s.heap.length) (hjp : j ≠ p) :
    (getI s.heap j).key ≠ it.key := by
  intro contra
  have h1 := hg.2.2.2.2 j hj hjp
  rw [contra, hg.2.2.1] at h1
  exact Option.noConfusion h1

theorem goodEx_key_ne2 (s : TTLStore) (p : Nat) (it : TTLItem) (hg : goodEx s p it)
    (i j : Nat) (hi : i < s.heap.length) (hj : j < s.heap.length)
    (hip : i ≠ p) (hjp : j ≠ p) (hne : i ≠ j) :
    (getI s.heap i).key ≠ (getI s.heap j).key := by
  intro contra
  have h1 := hg.2.2.2.2 i hi hip
  have h2 := hg.2.2.2.2 j hj hjp
  rw [contra, h2] at h1
  exact hne (Option.some.inj h1).symm

theorem swap_goodEx (s : TTLStore) (i p : Nat) (it : TTLItem)
    (hg : goodEx s p it) (hi : i < s.heap.length) (hip : i ≠ p) :
    goodEx (swapState s i p) i it := by
  obtain ⟨hp, hpit, hnone, hmap, hheap⟩ := hg
  have hLa := hheap i hi hip
  refine ⟨by rw [swap_heap_length]; exact hi, ?_, ?_, ?_, ?_⟩
  · rw [getI_swap_fst s i p hi hp hip, hpit]
  · rw [lookupIdx_swap s i p _ hi hp,
      if_neg (fun e => goodEx_key_ne s p it ⟨hp, hpit, hnone, hmap, hheap⟩ i hi hip e.symm),
      hpit, if_pos rfl, hnone]
    rfl
  · intro k m hm
    rw [lookupIdx_swap s i p k hi hp] at hm
    by_cases h1 : k = (getI s.heap i).key
    · rw [if_pos h1, h1, hLa] at hm
      have hmp : m = p := (Option.some.inj hm).symm
      rw [hmp]
      refine ⟨by rw [swap_heap_length]; exact hp, Ne.symm hip, ?_⟩
      rw [getI_swap_snd s i p hi hp]
      exact h1.symm
    · rw [if_neg h1] at hm
      by_cases h2 : k = (getI s.heap p).key
      · rw [if_pos h2, h2, hpit, hnone] at hm
        simp at hm
      · rw [if_neg h2] at hm
        obtain ⟨hmlt, hmp, hkey⟩ := hmap k m hm
        have hmi : m ≠ i := by
          intro e
          subst e
          exact h1 hkey.symm
        have hmp2 : m ≠ p := hmp
        refine ⟨by rw [swap_heap_length]; exact hmlt, hmi, ?_⟩
        rw [getI_swap_other s i p m hmi hmp2]
        exact hkey
  · intro m hm hmi
    rw [swap_heap_length] at hm
    by_cases hmp : m = p
    · rw [hmp, getI_swap_snd s i p hi hp, lookupIdx_swap s i p _ hi hp, if_pos rfl, hLa]
      rfl
    · rw [getI_swap_other s i p m hmi hmp, lookupIdx_swap s i p _ hi hp,
        if_neg (goodEx_key_ne2 s p it ⟨hp, hpit, hnone, hmap, hheap⟩ m i hm hi hmp hip hmi),
        if_neg (fun e => goodEx_key_ne s p it ⟨hp, hpit, hnone, hmap, hheap⟩ m hm hmp
          (e.trans (by rw [hpit])))]
      exact hheap m hm hmp

/-! ### Preservation of consistency by the sift loops and heap operations -/

theorem upF_heap_length (fuel : Nat) :
    ∀ s j, ((upF fuel s j).1).heap.length = s.heap.length := by
  induction fuel with
  | zero => intro s j; rfl
  | succ fuel ih =>
    intro s j
    simp only [upF]
    split
    · rfl
    · split
      · rw [ih, swap_heap_length]
      · rfl

theorem downF_heap_length (fuel : Nat) :
    ∀ s i n, ((downF fuel s i n).1).heap.length = s.heap.length := by
  induction fuel with
  | zero => intro s i n; rfl
  | succ fuel ih =>
    intro s i n
    simp only [downF]
    split
    · rfl
    · split <;> split
      · rw [ih, swap_heap_length]
      · rfl
      · rw [ih, swap_heap_length]
      · rfl

theorem upF_good (fuel : Nat) :
    ∀ s j, good s → good ((upF fuel s j).1) := by
  induction fuel with
  | zero => intro s j hg; exact hg
  | succ fuel ih =>
    intro s j hg
    simp only [upF]
    split
    · exact hg
    · split
      · exact ih _ _ (swap_good _ _ _ hg)
      · exact hg

theorem downF_good (fuel : Nat) :
    ∀ s i n, good s → good ((downF fuel s i n).1) := by
  induction fuel with
  | zero => intro s i n hg; exact hg
  | succ fuel ih =>
    intro s i n hg
    simp only [downF]
    split
    · exact hg
    · split <;> split
      · exact ih _ _ _ (swap_good _ _ _ hg)
      · exact hg
      · exact ih _ _ _ (swap_good _ _ _ hg)
      · exact hg

theorem upF_getI_gt (fuel : Nat) :
    ∀ s j m, j < m → getI ((upF fuel s j).1).heap m = getI s.heap m := by
  induction fuel with
  | zero => intro s j m _; rfl
  | succ fuel ih =>
    intro s j m hm
    simp only [upF]
    split
    · rfl
    · split
      · have hpar : parentIdx j ≤ j :=
          Nat.le_trans (Nat.div_le_self _ 2) (Nat.sub_le j 1)
        rw [ih _ _ m (Nat.lt_of_le_of_lt hpar hm),
          getI_swap_other s _ j m (by
            have := hpar
            omega) (by omega)]
      · rfl

theorem downF_getI_ge (fuel : Nat) :
    ∀ s i n m, n ≤ m → getI ((downF fuel s i n).1).heap m = getI s.heap m := by
  induction fuel with
  | zero => intro s i n m _; rfl
  | succ fuel ih =>
    intro s i n m hm
    simp only [downF]
    split
    · rfl
    · rename_i hj1
      split <;> split
      · rename_i hC hless
        rw [ih _ _ _ m hm,
          getI_swap_other s i (2 * i + 2) m (by omega) (by
            have := hC.1
            omega)]
      · rfl
      · rw [ih _ _ _ m hm, getI_swap_other s i (2 * i + 1) m (by omega) (by omega)]
      · rfl

theorem upF_goodEx (fuel : Nat) :
    ∀ s j it, goodEx s j it → goodEx ((upF fuel s j).1) ((upF fuel s j).2) it := by
  induction fuel with
  | zero => intro s j it hg; exact hg
  | succ fuel ih =>
    intro s j it hg
    simp only [upF]
    split
    · exact hg
    · rename_i hij
      split
      · refine ih _ _ _ (swap_goodEx s _ j it hg ?_ hij)
        have hpar : parentIdx j ≤ j :=
          Nat.le_trans (Nat.div_le_self _ 2) (Nat.sub_le j 1)
        exact Nat.lt_of_le_of_lt hpar hg.1
      · exact hg

/-! ### Consistency through `SetTTL`, `heap.Pop`-plus-delete and `FlushAll` -/

theorem append_goodEx (s : TTLStore) (k : String) (e : Int) (hg : good s)
    (hnone : lookupIdx s.entries k = none) :
    goodEx { heap := s.heap ++ [⟨k, e⟩], entries := s.entries }
      s.heap.length ⟨k, e⟩ := by
  refine ⟨by simp, ?_, hnone, ?_, ?_⟩
  · exact getI_append_len s.heap ⟨k, e⟩
  · intro k2 m hm
    obtain ⟨hmlt, hkey⟩ := hg.1 k2 m hm
    refine ⟨by simp; omega, by omega, ?_⟩
    show (getI (s.heap ++ [⟨k, e⟩]) m).key = k2
    rw [getI_append_lt s.heap _ m hmlt]
    exact hkey
  · intro j hj hjne
    have hjlt : j < s.heap.length := by
      simp at hj
      omega
    show lookupIdx s.entries ((getI (s.heap ++ [⟨k, e⟩]) j).key) = some j
    rw [getI_append_lt s.heap _ j hjlt]
    exact hg.2 j hjlt

theorem insert_goodEx_good (s : TTLStore) (p : Nat) (it : TTLItem)
    (hg : goodEx s p it) :
    good { s with entries := insertKey s.entries it.key p } := by
  obtain ⟨hp, hpit, hnone, hmap, hheap⟩ := hg
  constructor
  · intro k m hm
    rw [show ({ s with entries := insertKey s.entries it.key p } : TTLStore).entries =
      insertKey s.entries it.key p from rfl, lookupIdx_insertKey] at hm
    by_cases hk : k = it.key
    · rw [if_pos hk] at hm
      have hmp : m = p := (Option.some.inj hm).symm
      rw [hmp]
      exact ⟨hp, by rw [show ({ s with entries := insertKey s.entries it.key p } :
        TTLStore).heap = s.heap from rfl, hpit, hk]⟩
    · rw [if_neg hk] at hm
      obtain ⟨hmlt, _, hkey⟩ := hmap k m hm
      exact ⟨hmlt, hkey⟩
  · intro j hj
    have hj2 : j < s.heap.length := hj
    show lookupIdx (insertKey s.entries it.key p) ((getI s.heap j).key) = some j
    rw [lookupIdx_insertKey]
    by_cases hjp : j = p
    · rw [hjp, hpit, if_pos rfl]
    · rw [if_neg (goodEx_key_ne s p it ⟨hp, hpit, hnone, hmap, hheap⟩ j hj2 hjp)]
      exact hheap j hj2 hjp

theorem dropLast_erase_good (s : TTLStore) (hg : good s) (hne : s.heap.length ≠ 0)
    (k : String) (hk : (getI s.heap (s.heap.length - 1)).key = k) :
    good { heap := s.heap.dropLast, entries := eraseKey s.entries k } := by
  constructor
  · intro k2 m hm
    rw [show ({ heap := s.heap.dropLast, entries := eraseKey s.entries k } :
      TTLStore).entries = eraseKey s.entries k from rfl, lookupIdx_eraseKey] at hm
    by_cases hq : k2 = k
    · rw [if_pos hq] at hm
      exact Option.noConfusion hm
    · rw [if_neg hq] at hm
      obtain ⟨hmlt, hkey⟩ := hg.1 k2 m hm
      have hmn : m ≠ s.heap.length - 1 := by
        intro e
        rw [e, hk] at hkey
        exact hq hkey.symm
      have hmlt2 : m < s.heap.length - 1 := by omega
      refine ⟨by simpa using hmlt2, ?_⟩
      show (getI s.heap.dropLast m).key = k2
      rw [getI_dropLast s.heap m (by omega)]
      exact hkey
  · intro j hj
    have hjlt : j < s.heap.length - 1 := by simpa using hj
    show lookupIdx (eraseKey s.entries k) ((getI s.heap.dropLast j).key) = some j
    rw [getI_dropLast s.heap j (by omega), lookupIdx_eraseKey,
      if_neg (by
        intro e
        have := good_key_ne s hg j (s.heap.length - 1) (by omega) (by omega) (by omega)
        rw [hk] at this
        exact this e)]
    exact hg.2 j (by omega)

theorem up_heap_length (s : TTLStore) (j : Nat) :
    ((up s j).1).heap.length = s.heap.length :=
  upF_heap_length _ _ _

theorem down_heap_length (s : TTLStore) (i n : Nat) :
    ((down s i n).1).heap.length = s.heap.length :=
  downF_heap_length _ _ _ _

theorem up_good (s : TTLStore) (j : Nat) (hg : good s) : good ((up s j).1) :=
  upF_good _ _ _ hg

theorem down_good (s : TTLStore) (i n : Nat) (hg : good s) : good ((down s i n).1) :=
  downF_good _ _ _ _ hg

theorem up_getI_gt (s : TTLStore) (j m : Nat) (h : j < m) :
    getI ((up s j).1).heap m = getI s.heap m :=
  upF_getI_gt _ _ _ _ h

theorem down_getI_ge (s : TTLStore) (i n m : Nat) (h : n ≤ m) :
    getI ((down s i n).1).heap m = getI s.heap m :=
  downF_getI_ge _ _ _ _ _ h

theorem heapRemove_erase_good (s : TTLStore) (key : String) (i : Nat) (hg : good s)
    (hlk : lookupIdx s.entries key = some i) :
    good { heap := (heapRemove s i).heap,
           entries := eraseKey (heapRemove s i).entries key } := by
  obtain ⟨hi, hkey⟩ := hg.1 key i hlk
  by_cases hin : i = s.heap.length - 1
  · have hrem : heapRemove s i = { heap := s.heap.dropLast, entries := s.entries } := by
      simp only [heapRemove]
      rw [if_neg (by omega : ¬i ≠ s.heap.length - 1)]
    rw [hrem]
    exact dropLast_erase_good s hg (by omega) key (by rw [← hin]; exact hkey)
  · have hnlt : s.heap.length - 1 < s.heap.length := by omega
    have hiltn : i < s.heap.length - 1 := by omega
    have hkey2 : (getI ((down (swapState s i (s.heap.length - 1)) i
        (s.heap.length - 1)).1).heap (s.heap.length - 1)).key = key := by
      rw [down_getI_ge _ i (s.heap.length - 1) (s.heap.length - 1) (Nat.le_refl _),
        getI_swap_snd s i (s.heap.length - 1) hi hnlt]
      exact hkey
    have hgd : good ((down (swapState s i (s.heap.length - 1)) i
        (s.heap.length - 1)).1) :=
      down_good _ i _ (swap_good s i _ hg)
    have hlend : ((down (swapState s i (s.heap.length - 1)) i
        (s.heap.length - 1)).1).heap.length = s.heap.length := by
      rw [down_heap_length, swap_heap_length]
    by_cases hmove : i < (down (swapState s i (s.heap.length - 1)) i
        (s.heap.length - 1)).2
    · have hrem : heapRemove s i =
          { heap := ((down (swapState s i (s.heap.length - 1)) i
              (s.heap.length - 1)).1).heap.dropLast,
            entries := ((down (swapState s i (s.heap.length - 1)) i
              (s.heap.length - 1)).1).entries } := by
        simp only [heapRemove]
        rw [if_pos hin, if_pos hmove]
      rw [hrem]
      exact dropLast_erase_good _ hgd (by rw [hlend]; omega) key
        (by rw [hlend]; exact hkey2)
    · have hrem : heapRemove s i =
          { heap := ((up ((down (swapState s i (s.heap.length - 1)) i
              (s.heap.length - 1)).1) i).1).heap.dropLast,
            entries := ((up ((down (swapState s i (s.heap.length - 1)) i
              (s.heap.length - 1)).1) i).1).entries } := by
        simp only [heapRemove]
        rw [if_pos hin, if_neg hmove]
      rw [hrem]
      refine dropLast_erase_good _ (up_good _ i hgd)
        (by rw [up_heap_length, hlend]; omega) key ?_
      rw [up_heap_length, hlend, up_getI_gt _ i (s.heap.length - 1) hiltn]
      exact hkey2

theorem pushRegister_spec (s1 : TTLStore) (k : String) (e : Int) (hg : good s1)
    (hnone : lookupIdx s1.entries k = none) :
    good { (heapPush s1 ⟨k, e⟩).1 with
           entries := insertKey (heapPush s1 ⟨k, e⟩).1.entries k (heapPush s1 ⟨k, e⟩).2 } ∧
    lookupIdx (insertKey (heapPush s1 ⟨k, e⟩).1.entries k (heapPush s1 ⟨k, e⟩).2) k =
      some (heapPush s1 ⟨k, e⟩).2 ∧
    (heapPush s1 ⟨k, e⟩).2 < (heapPush s1 ⟨k, e⟩).1.heap.length ∧
    getI (heapPush s1 ⟨k, e⟩).1.heap (heapPush s1 ⟨k, e⟩).2 = ⟨k, e⟩ := by
  have hex : goodEx { heap := s1.heap ++ [⟨k, e⟩], entries := s1.entries }
      s1.heap.length ⟨k, e⟩ := append_goodEx s1 k e hg hnone
  have hex2 := upF_goodEx (s1.heap.length + 1) _ _ _ hex
  have hpush : heapPush s1 ⟨k, e⟩ =
      upF (s1.heap.length + 1) { heap := s1.heap ++ [⟨k, e⟩], entries := s1.entries }
        s1.heap.length := rfl
  rw [hpush]
  obtain ⟨hp, hpit, hnone2, hmap, hheap⟩ := hex2
  refine ⟨insert_goodEx_good _ _ _ ⟨hp, hpit, hnone2, hmap, hheap⟩, ?_, hp, hpit⟩
  rw [lookupIdx_insertKey, if_pos rfl]

theorem setTTL_phase1 (s : TTLStore) (k : String) (hg : good s) :
    good (match lookupIdx s.entries k with
          | some oldIdx =>
            let r := heapRemove s oldIdx
            ({ r with entries := eraseKey r.entries k } : TTLStore)
          | none => s) ∧
    lookupIdx (match lookupIdx s.entries k with
          | some oldIdx =>
            let r := heapRemove s oldIdx
            ({ r with entries := eraseKey r.entries k } : TTLStore)
          | none => s).entries k = none := by
  cases hmatch : lookupIdx s.entries k with
  | none => exact ⟨hg, hmatch⟩
  | some oldIdx =>
    refine ⟨heapRemove_erase_good s k oldIdx hg hmatch, ?_⟩
    show lookupIdx (eraseKey (heapRemove s oldIdx).entries k) k = none
    rw [lookupIdx_eraseKey, if_pos rfl]

theorem setTTL_spec (s : TTLStore) (k : String) (e : Int) (hg : good s) :
    good (SetTTL s k e) ∧
    ∃ p, lookupIdx (SetTTL s k e).entries k = some p ∧
      p < (SetTTL s k e).heap.length ∧ getI (SetTTL s k e).heap p = ⟨k, e⟩ := by
  obtain ⟨hg1, hnone1⟩ := setTTL_phase1 s k hg
  have hmain := pushRegister_spec _ k e hg1 hnone1
  exact ⟨hmain.1, (heapPush _ ⟨k, e⟩).2, hmain.2.1, hmain.2.2.1, hmain.2.2.2⟩

theorem setTTL_getTTL (s : TTLStore) (k : String) (e : Int) (hg : good s) :
    GetTTL (SetTTL s k e) k = some e := by
  obtain ⟨-, p, hlk, -, hitem⟩ := setTTL_spec s k e hg
  rw [GetTTL, hlk]
  show some (getI (SetTTL s k e).heap p).expiresAt = some e
  rw [hitem]

theorem good_unique (s : TTLStore) (hg : good s) (k : String) (p : Nat)
    (hlk : lookupIdx s.entries k = some p) :
    ∀ j, j < s.heap.length → (getI s.heap j).key = k → j = p := by
  intro j hj hjk
  have h := hg.2 j hj
  rw [hjk, hlk] at h
  exact (Option.some.inj h).symm

theorem flushAll_good (s : TTLStore) : good (FlushAll s) := by
  constructor
  · intro k i hm
    exact Option.noConfusion hm
  · intro j hj
    exact absurd hj (by simp [FlushAll])

theorem init_good : good initTTL := by
  constructor
  · intro k i hm
    exact Option.noConfusion hm
  · intro j hj
    exact absurd hj (by simp [initTTL])

theorem pop_erase_good (s : TTLStore) (hg : good s) (hne : s.heap.length ≠ 0) :
    good { (heapPop s).2 with
           entries := eraseKey (heapPop s).2.entries (heapPop s).1.key } := by
  have hnlt : s.heap.length - 1 < s.heap.length := by omega
  have hg2 : good ((down (swapState s 0 (s.heap.length - 1)) 0
      (s.heap.length - 1)).1) :=
    down_good _ 0 _ (swap_good s 0 _ hg)
  have hlen2 : ((down (swapState s 0 (s.heap.length - 1)) 0
      (s.heap.length - 1)).1).heap.length = s.heap.length := by
    rw [down_heap_length, swap_heap_length]
  have hpop2 : (heapPop s).2 =
      { (down (swapState s 0 (s.heap.length - 1)) 0 (s.heap.length - 1)).1 with
        heap := ((down (swapState s 0 (s.heap.length - 1)) 0
          (s.heap.length - 1)).1).heap.dropLast } := rfl
  have hpop1 : (heapPop s).1 =
      getI ((down (swapState s 0 (s.heap.length - 1)) 0
        (s.heap.length - 1)).1).heap (s.heap.length - 1) := rfl
  rw [hpop2, hpop1]
  exact dropLast_erase_good _ hg2 (by rw [hlen2]; omega) _ (by rw [hlen2])

theorem drainF_good (fuel : Nat) :
    ∀ s now, good s → good ((drainF fuel s now).1) := by
  induction fuel with
  | zero => intro s now hg; exact hg
  | succ fuel ih =>
    intro s now hg
    simp only [drainF]
    split
    · exact hg
    · rename_i hcond
      have hne : s.heap.length ≠ 0 := by
        intro e
        exact hcond (Or.inl e)
      exact ih _ now (pop_erase_good s hg hne)

theorem stepOp_good (acc : TTLStore × List TTLItem) (op : Op) (hg : good acc.1) :
    good ((stepOp acc op).1) := by
  obtain ⟨s, F⟩ := acc
  cases op with
  | setTTL k e => exact (setTTL_spec s k e hg).1
  | drainOp now => exact drainF_good _ _ _ hg
  | flushAll => exact flushAll_good s

theorem exec_good (ops : List Op) : good ((exec ops).1) := by
  suffices h : ∀ acc : TTLStore × List TTLItem, good acc.1 →
      good ((List.foldl stepOp acc ops).1) by
    exact h (initTTL, []) init_good
  induction ops with
  | nil => intro acc hg; exact hg
  | cons op rest ih =>
    intro acc hg
    exact ih (stepOp acc op) (stepOp_good acc op hg)

/-! ### The min-heap order invariant -/

theorem parentIdx_lt (c : Nat) (h : 0 < c) : parentIdx c < c := by
  unfold parentIdx
  omega

theorem parentIdx_le (c : Nat) : parentIdx c ≤ c := by
  unfold parentIdx
  omega

theorem parentIdx_child_iff (p c : Nat) (h : 0 < c) :
    parentIdx c = p ↔ c = 2 * p + 1 ∨ c = 2 * p + 2 := by
  unfold parentIdx
  omega

theorem parentIdx_zero : parentIdx 0 = 0 := rfl

/-- Heap order on the slot prefix `[0, n)`: every non-root slot is not before
its parent (`container/heap`'s invariant for `Less` given by expiration
times). -/
def orderedPfx (l : List TTLItem) (n : Nat) : Prop :=
  ∀ c, 0 < c → c < n → (getI l (parentIdx c)).expiresAt ≤ (getI l c).expiresAt

/-- Heap order of a store's whole heap slice. -/
def orderedHeap (s : TTLStore) : Prop :=
  orderedPfx s.heap s.heap.length

theorem orderedPfx_mono (l : List TTLItem) (n m : Nat) (h : orderedPfx l n)
    (hmn : m ≤ n) : orderedPfx l m :=
  fun c hc0 hcm => h c hc0 (Nat.lt_of_lt_of_le hcm hmn)

theorem orderedPfx_root_min (l : List TTLItem) (n : Nat) (h : orderedPfx l n) :
    ∀ j, j < n → (getI l 0).expiresAt ≤ (getI l j).expiresAt := by
  intro j
  induction j using Nat.strong_induction_on with
  | _ j ih =>
    intro hj
    cases Nat.eq_zero_or_pos j with
    | inl h0 => rw [h0]
    | inr hpos =>
      exact le_trans
        (ih (parentIdx j) (parentIdx_lt j hpos)
          (Nat.lt_trans (parentIdx_lt j hpos) hj))
        (h j hpos hj)

/-- The sift-down loop invariant at position `i` over prefix `n`: all
parent-child pairs are ordered except those whose child or parent is `i`, and
`i`'s children (if any) are bounded below by `i`'s parent. -/
def DownInv (l : List TTLItem) (n i : Nat) : Prop :=
  (∀ c, 0 < c → c < n → c ≠ i → parentIdx c ≠ i →
    (getI l (parentIdx c)).expiresAt ≤ (getI l c).expiresAt) ∧
  (0 < i → ∀ c, c < n → parentIdx c = i →
    (getI l (parentIdx i)).expiresAt ≤ (getI l c).expiresAt)

theorem downInv_swap (s : TTLStore) (i n J : Nat) (hn : n ≤ s.heap.length)
    (hiJ : i < J) (hJn : J < n) (hJpar : parentIdx J = i)
    (hmin : ∀ c, 0 < c → c < n → parentIdx c = i →
      (getI s.heap J).expiresAt ≤ (getI s.heap c).expiresAt)
    (hless : lessAt s J i)
    (hinv : DownInv s.heap n i) :
    DownInv ((swapState s i J).heap) n J := by
  have hilen : i < s.heap.length := by omega
  have hJlen : J < s.heap.length := by omega
  have hswapJ : getI (swapState s i J).heap J = getI s.heap i :=
    getI_swap_snd s i J hilen hJlen
  have hswapI : getI (swapState s i J).heap i = getI s.heap J :=
    getI_swap_fst s i J hilen hJlen (by omega)
  constructor
  · intro c hc0 hcn hcJ hpcJ
    by_cases hci : c = i
    · have hi0 : 0 < i := by omega
      have hpar_lt : parentIdx i < i := parentIdx_lt i hi0
      rw [hci, hswapI,
        getI_swap_other s i J (parentIdx i) (by omega) (by omega)]
      exact hinv.2 hi0 J hJn hJpar
    · by_cases hpci : parentIdx c = i
      · rw [getI_swap_other s i J c hci hcJ, hpci, hswapI]
        exact hmin c hc0 hcn hpci
      · rw [getI_swap_other s i J c hci hcJ,
          getI_swap_other s i J (parentIdx c) hpci hpcJ]
        exact hinv.1 c hc0 hcn hci hpci
  · intro hJ0 c hcn hpcJ
    have hc0 : 0 < c := by
      rcases Nat.eq_zero_or_pos c with h0 | h
      · rw [h0, parentIdx_zero] at hpcJ
        omega
      · exact h
    have hcgt : J < c := by
      have := (parentIdx_child_iff J c hc0).mp hpcJ
      omega
    rw [hJpar, hswapI, getI_swap_other s i J c (by omega) (by omega)]
    have h1 := hinv.1 c hc0 hcn (by omega) (by rw [hpcJ]; omega)
    rw [hpcJ] at h1
    exact h1

theorem downF_spec (fuel : Nat) :
    ∀ s i n, n - i ≤ fuel → n ≤ s.heap.length → DownInv s.heap n i →
    (∀ c, 0 < c → c < n → c ≠ (downF fuel s i n).2 →
      (getI ((downF fuel s i n).1).heap (parentIdx c)).expiresAt ≤
        (getI ((downF fuel s i n).1).heap c).expiresAt) ∧
    ((downF fuel s i n).2 ≠ i → orderedPfx ((downF fuel s i n).1).heap n) ∧
    ((downF fuel s i n).2 = i → (downF fuel s i n).1 = s) ∧
    i ≤ (downF fuel s i n).2 ∧
    ((downF fuel s i n).2 = i ∨ (downF fuel s i n).2 < n) := by
  induction fuel with
  | zero =>
    intro s i n hfuel hn hinv
    refine ⟨?_, fun hne => absurd rfl hne, fun _ => rfl, Nat.le_refl i, Or.inl rfl⟩
    intro c hc0 hcn hci
    by_cases hp : parentIdx c = i
    · exfalso
      have := (parentIdx_child_iff i c hc0).mp hp
      omega
    · exact hinv.1 c hc0 hcn hci hp
  | succ fuel ih =>
    intro s i n hfuel hn hinv
    simp only [downF]
    split
    · rename_i hstop
      refine ⟨?_, fun hne => absurd rfl hne, fun _ => rfl, Nat.le_refl i, Or.inl rfl⟩
      intro c hc0 hcn hci
      by_cases hp : parentIdx c = i
      · exfalso
        have := (parentIdx_child_iff i c hc0).mp hp
        omega
      · exact hinv.1 c hc0 hcn hci hp
    · rename_i hj1
      generalize hJdef :
        (if 2 * i + 2 < n ∧ lessAt s (2 * i + 2) (2 * i + 1)
         then 2 * i + 2 else 2 * i + 1) = J
      have hJfacts : i < J ∧ J < n ∧ parentIdx J = i ∧
          (∀ c, 0 < c → c < n → parentIdx c = i →
            (getI s.heap J).expiresAt ≤ (getI s.heap c).expiresAt) := by
        by_cases hC : 2 * i + 2 < n ∧ lessAt s (2 * i + 2) (2 * i + 1)
        · rw [if_pos hC] at hJdef
          subst hJdef
          refine ⟨by omega, hC.1, (parentIdx_child_iff i _ (by omega)).mpr (Or.inr rfl), ?_⟩
          intro c hc0 hcn hpc
          rcases (parentIdx_child_iff i c hc0).mp hpc with hc1 | hc2
          · rw [hc1]
            exact le_of_lt hC.2
          · rw [hc2]
        · rw [if_neg hC] at hJdef
          subst hJdef
          refine ⟨by omega, by omega,
            (parentIdx_child_iff i _ (by omega)).mpr (Or.inl rfl), ?_⟩
          intro c hc0 hcn hpc
          rcases (parentIdx_child_iff i c hc0).mp hpc with hc1 | hc2
          · rw [hc1]
          · rw [hc2]
            by_cases h2 : 2 * i + 2 < n
            · have hnl : ¬lessAt s (2 * i + 2) (2 * i + 1) := fun hl => hC ⟨h2, hl⟩
              exact not_lt.mp hnl
            · omega
      obtain ⟨hiJ, hJn, hJpar, hmin⟩ := hJfacts
      split
      · rename_i hless
        have hstep : DownInv ((swapState s i J).heap) n J :=
          downInv_swap s i n J hn hiJ hJn hJpar hmin hless hinv
        have hrec := ih (swapState s i J) J n (by omega)
          (by rw [swap_heap_length]; exact hn) hstep
        obtain ⟨hA, hB, hC2, hD1, hD2⟩ := hrec
        refine ⟨hA, ?_, ?_, by omega, ?_⟩
        · intro _
          by_cases hfJ : (downF fuel (swapState s i J) J n).2 = J
          · intro c hc0 hcn
            by_cases hcJ : c = J
            · rw [hC2 hfJ, hcJ, hJpar,
                getI_swap_fst s i J (by omega) (by omega) (by omega),
                getI_swap_snd s i J (by omega) (by omega)]
              have hless2 : (getI s.heap J).expiresAt < (getI s.heap i).expiresAt := hless
              exact le_of_lt hless2
            · exact hA c hc0 hcn (by rw [hfJ]; exact hcJ)
          · exact hB hfJ
        · intro he
          omega
        · rcases hD2 with h | h
          · exact Or.inr (by omega)
          · exact Or.inr h
      · rename_i hnless
        refine ⟨?_, fun hne => absurd rfl hne, fun _ => rfl, Nat.le_refl i, Or.inl rfl⟩
        intro c hc0 hcn hci
        by_cases hp : parentIdx c = i
        · have hnless2 : ¬(getI s.heap J).expiresAt < (getI s.heap i).expiresAt := hnless
          show (getI s.heap (parentIdx c)).expiresAt ≤ (getI s.heap c).expiresAt
          rw [hp]
          exact le_trans (not_lt.mp hnless2) (hmin c hc0 hcn hp)
        · exact hinv.1 c hc0 hcn hci hp

/-- The sift-up loop invariant at position `j` over prefix `n`: all
parent-child pairs are ordered except the one whose child is `j`, and `j`'s
children (if any) are bounded below by `j`'s parent. -/
def UpInv (l : List TTLItem) (n j : Nat) : Prop :=
  (∀ c, 0 < c → c < n → c ≠ j →
    (getI l (parentIdx c)).expiresAt ≤ (getI l c).expiresAt) ∧
  (∀ c, 0 < c → c < n → parentIdx c = j → 0 < j →
    (getI l (parentIdx j)).expiresAt ≤ (getI l c).expiresAt)

theorem upInv_swap (s : TTLStore) (j n : Nat) (hn : n ≤ s.heap.length)
    (hj0 : 0 < j) (hjn : j < n)
    (hless : lessAt s j (parentIdx j)) (hinv : UpInv s.heap n j) :
    UpInv ((swapState s (parentIdx j) j).heap) n (parentIdx j) := by
  have hilt : parentIdx j < j := parentIdx_lt j hj0
  have hilen : parentIdx j < s.heap.length := by omega
  have hjlen : j < s.heap.length := by omega
  have hswapJ : getI (swapState s (parentIdx j) j).heap j =
      getI s.heap (parentIdx j) :=
    getI_swap_snd s (parentIdx j) j hilen hjlen
  have hswapI : getI (swapState s (parentIdx j) j).heap (parentIdx j) =
      getI s.heap j :=
    getI_swap_fst s (parentIdx j) j hilen hjlen (by omega)
  have hless2 : (getI s.heap j).expiresAt < (getI s.heap (parentIdx j)).expiresAt :=
    hless
  constructor
  · intro c hc0 hcn hci
    by_cases hcj : c = j
    · rw [hcj, hswapI, hswapJ]
      exact le_of_lt hless2
    · by_cases hpcj : parentIdx c = j
      · have hcgt : j < c := by
          have := (parentIdx_child_iff j c hc0).mp hpcj
          omega
        rw [hpcj, hswapJ, getI_swap_other s (parentIdx j) j c (by omega) (by omega)]
        exact hinv.2 c hc0 hcn hpcj hj0
      · by_cases hpci : parentIdx c = parentIdx j
        · have h1 := hinv.1 c hc0 hcn hcj
          rw [hpci] at h1
          rw [hpci, hswapI, getI_swap_other s (parentIdx j) j c hci hcj]
          exact le_trans (le_of_lt hless2) h1
        · rw [getI_swap_other s (parentIdx j) j c hci hcj,
            getI_swap_other s (parentIdx j) j (parentIdx c) hpci hpcj]
          exact hinv.1 c hc0 hcn hcj
  · intro c hc0 hcn hpci hi0
    have hglt : parentIdx (parentIdx j) < parentIdx j := parentIdx_lt _ hi0
    have hgother : getI (swapState s (parentIdx j) j).heap (parentIdx (parentIdx j)) =
        getI s.heap (parentIdx (parentIdx j)) :=
      getI_swap_other s (parentIdx j) j _ (by omega) (by omega)
    have hpair_i := hinv.1 (parentIdx j) hi0 (by omega) (by omega)
    by_cases hcj : c = j
    · rw [hcj, hgother, hswapJ]
      exact hpair_i
    · have hcne : c ≠ parentIdx j := by
        have := parentIdx_lt c hc0
        omega
      rw [hgother, getI_swap_other s (parentIdx j) j c hcne hcj]
      have h1 := hinv.1 c hc0 hcn hcj
      rw [hpci] at h1
      exact le_trans hpair_i h1

theorem upF_spec (fuel : Nat) :
    ∀ s j n, j < fuel → j < n → n ≤ s.heap.length → UpInv s.heap n j →
    orderedPfx ((upF fuel s j).1).heap n := by
  induction fuel with
  | zero =>
    intro s j n hfuel
    omega
  | succ fuel ih =>
    intro s j n hfuel hjn hn hinv
    simp only [upF]
    split
    · rename_i hij
      have hj0 : j = 0 := by
        unfold parentIdx at hij
        omega
      intro c hc0 hcn
      exact hinv.1 c hc0 hcn (by omega)
    · rename_i hij
      have hj0 : 0 < j := by
        rcases Nat.eq_zero_or_pos j with h0 | h
        · rw [h0, parentIdx_zero] at hij
          exact absurd (h0.symm) (fun e => hij (by omega))
        · exact h
      split
      · rename_i hless
        exact ih (swapState s (parentIdx j) j) (parentIdx j) n
          (by have := parentIdx_lt j hj0; omega)
          (by have := parentIdx_lt j hj0; omega)
          (by rw [swap_heap_length]; exact hn)
          (upInv_swap s j n hn hj0 hjn hless hinv)
      · rename_i hnless
        have hnless2 : ¬(getI s.heap j).expiresAt <
            (getI s.heap (parentIdx j)).expiresAt := hnless
        intro c hc0 hcn
        by_cases hcj : c = j
        · rw [hcj]
          exact not_lt.mp hnless2
        · exact hinv.1 c hc0 hcn hcj

theorem down_spec (s : TTLStore) (i n : Nat) (hn : n ≤ s.heap.length)
    (hinv : DownInv s.heap n i) :
    (∀ c, 0 < c → c < n → c ≠ (down s i n).2 →
      (getI ((down s i n).1).heap (parentIdx c)).expiresAt ≤
        (getI ((down s i n).1).heap c).expiresAt) ∧
    ((down s i n).2 ≠ i → orderedPfx ((down s i n).1).heap n) ∧
    ((down s i n).2 = i → (down s i n).1 = s) ∧
    i ≤ (down s i n).2 ∧ ((down s i n).2 = i ∨ (down s i n).2 < n) :=
  downF_spec (n - i) s i n (Nat.le_refl _) hn hinv

theorem up_spec (s : TTLStore) (j n : Nat) (hjn : j < n) (hn : n ≤ s.heap.length)
    (hinv : UpInv s.heap n j) : orderedPfx ((up s j).1).heap n :=
  upF_spec (j + 1) s j n (by omega) hjn hn hinv

theorem orderedPfx_dropLast (l : List TTLItem) (n : Nat) (hlen : l.length = n + 1)
    (h : orderedPfx l n) : orderedPfx l.dropLast n := by
  intro c hc0 hcn
  rw [getI_dropLast l c (by omega),
    getI_dropLast l (parentIdx c) (by
      have := parentIdx_lt c hc0
      omega)]
  exact h c hc0 hcn

theorem push_ordered (s : TTLStore) (it : TTLItem) (hord : orderedHeap s) :
    orderedHeap ((heapPush s it).1) := by
  have hlen : ((heapPush s it).1).heap.length = s.heap.length + 1 := by
    show ((up { s with heap := s.heap ++ [it] } s.heap.length).1).heap.length = _
    rw [up_heap_length]
    simp
  unfold orderedHeap
  rw [hlen]
  show orderedPfx ((upF (s.heap.length + 1) { s with heap := s.heap ++ [it] }
    s.heap.length).1).heap (s.heap.length + 1)
  apply upF_spec
  · omega
  · omega
  · show s.heap.length + 1 ≤ (s.heap ++ [it]).length
    simp
  · constructor
    · intro c hc0 hcn hcj
      have hclt : c < s.heap.length := by omega
      have hplt : parentIdx c < s.heap.length :=
        Nat.lt_of_le_of_lt (Nat.le_of_lt (parentIdx_lt c hc0)) hclt
      show (getI (s.heap ++ [it]) (parentIdx c)).expiresAt ≤
        (getI (s.heap ++ [it]) c).expiresAt
      rw [getI_append_lt s.heap _ c hclt, getI_append_lt s.heap _ (parentIdx c) hplt]
      exact hord c hc0 hclt
    · intro c hc0 hcn hpc
      exfalso
      have := (parentIdx_child_iff s.heap.length c hc0).mp hpc
      omega

theorem downInv_removeSwap (s : TTLStore) (i : Nat) (hord : orderedHeap s)
    (hi2 : i < s.heap.length - 1) :
    DownInv ((swapState s i (s.heap.length - 1)).heap) (s.heap.length - 1) i := by
  have hnlt : s.heap.length - 1 < s.heap.length := by omega
  constructor
  · intro c hc0 hcn hci hpci
    rw [getI_swap_other s i _ c hci (by omega),
      getI_swap_other s i _ (parentIdx c) hpci (by
        have := parentIdx_lt c hc0
        omega)]
    exact hord c hc0 (by omega)
  · intro hi0 c hcn hpci
    have hc0 : 0 < c := by
      rcases Nat.eq_zero_or_pos c with h0 | h
      · rw [h0, parentIdx_zero] at hpci
        omega
      · exact h
    have hcgt : i < c := by
      have := (parentIdx_child_iff i c hc0).mp hpci
      omega
    rw [getI_swap_other s i _ c (by omega) (by omega),
      getI_swap_other s i _ (parentIdx i) (by
        have := parentIdx_lt i hi0
        omega) (by
        have := parentIdx_lt i hi0
        omega)]
    have h1 := hord c hc0 (by omega)
    rw [hpci] at h1
    exact le_trans (hord i hi0 (by omega)) h1

theorem remove_ordered (s : TTLStore) (i : Nat) (hord : orderedHeap s)
    (hi : i < s.heap.length) : orderedHeap (heapRemove s i) := by
  by_cases hin : i = s.heap.length - 1
  · have hrem : heapRemove s i = { heap := s.heap.dropLast, entries := s.entries } := by
      simp only [heapRemove]
      rw [if_neg (by omega : ¬i ≠ s.heap.length - 1)]
    rw [hrem]
    show orderedPfx s.heap.dropLast s.heap.dropLast.length
    have hdl : s.heap.dropLast.length = s.heap.length - 1 := by simp
    rw [hdl]
    exact orderedPfx_dropLast s.heap _ (by omega)
      (orderedPfx_mono s.heap _ _ hord (by omega))
  · have hi2 : i < s.heap.length - 1 := by omega
    have hinv := downInv_removeSwap s i hord hi2
    have hslen : (swapState s i (s.heap.length - 1)).heap.length = s.heap.length :=
      swap_heap_length s i _
    have hspec := down_spec (swapState s i (s.heap.length - 1))
      i (s.heap.length - 1) (by omega) hinv
    by_cases hmove : i < (down (swapState s i (s.heap.length - 1)) i
        (s.heap.length - 1)).2
    · have hrem : heapRemove s i =
          { heap := ((down (swapState s i (s.heap.length - 1)) i
              (s.heap.length - 1)).1).heap.dropLast,
            entries := ((down (swapState s i (s.heap.length - 1)) i
              (s.heap.length - 1)).1).entries } := by
        simp only [heapRemove]
        rw [if_pos hin, if_pos hmove]
      rw [hrem]
      have hordn := hspec.2.1 (by omega)
      have hlend : ((down (swapState s i (s.heap.length - 1)) i
          (s.heap.length - 1)).1).heap.length = s.heap.length := by
        rw [down_heap_length, hslen]
      show orderedPfx _ (((down (swapState s i (s.heap.length - 1)) i
        (s.heap.length - 1)).1).heap.dropLast).length
      rw [List.length_dropLast, hlend]
      exact orderedPfx_dropLast _ _ (by omega) hordn
    · have hfi : (down (swapState s i (s.heap.length - 1)) i
          (s.heap.length - 1)).2 = i := by
        have := hspec.2.2.2.1
        omega
      have hstate := hspec.2.2.1 hfi
      have hrem : heapRemove s i =
          { heap := ((up ((down (swapState s i (s.heap.length - 1)) i
              (s.heap.length - 1)).1) i).1).heap.dropLast,
            entries := ((up ((down (swapState s i (s.heap.length - 1)) i
              (s.heap.length - 1)).1) i).1).entries } := by
        simp only [heapRemove]
        rw [if_pos hin, if_neg hmove]
      rw [hrem, hstate]
      have hA := hspec.1
      rw [hfi, hstate] at hA
      have hup : orderedPfx ((up (swapState s i (s.heap.length - 1)) i).1).heap
          (s.heap.length - 1) := by
        apply up_spec
        · omega
        · omega
        · exact ⟨fun c hc0 hcn hci => hA c hc0 hcn hci,
            fun c hc0 hcn hpc hi0 => hinv.2 hi0 c hcn hpc⟩
      have hlenu : ((up (swapState s i (s.heap.length - 1)) i).1).heap.length =
          s.heap.length := by
        rw [up_heap_length, hslen]
      show orderedPfx _ (((up (swapState s i (s.heap.length - 1)) i).1).heap.dropLast).length
      rw [List.length_dropLast, hlenu]
      exact orderedPfx_dropLast _ _ (by omega) hup

theorem pop_ordered (s : TTLStore) (hord : orderedHeap s)
    (hne : s.heap.length ≠ 0) : orderedHeap ((heapPop s).2) := by
  have hnlt : s.heap.length - 1 < s.heap.length := by omega
  have hinv : DownInv ((swapState s 0 (s.heap.length - 1)).heap)
      (s.heap.length - 1) 0 := by
    constructor
    · intro c hc0 hcn hci hpci
      rw [getI_swap_other s 0 _ c hci (by omega),
        getI_swap_other s 0 _ (parentIdx c) hpci (by
          have := parentIdx_lt c hc0
          omega)]
      exact hord c hc0 (by omega)
    · intro h0
      omega
  have hslen : (swapState s 0 (s.heap.length - 1)).heap.length = s.heap.length :=
    swap_heap_length s 0 _
  have hspec := down_spec (swapState s 0 (s.heap.length - 1))
    0 (s.heap.length - 1) (by omega) hinv
  have hordn : orderedPfx ((down (swapState s 0 (s.heap.length - 1)) 0
      (s.heap.length - 1)).1).heap (s.heap.length - 1) := by
    by_cases hf0 : (down (swapState s 0 (s.heap.length - 1)) 0
        (s.heap.length - 1)).2 = 0
    · intro c hc0 hcn
      exact hspec.1 c hc0 hcn (by omega)
    · exact hspec.2.1 hf0
  have hlend : ((down (swapState s 0 (s.heap.length - 1)) 0
      (s.heap.length - 1)).1).heap.length = s.heap.length := by
    rw [down_heap_length, hslen]
  show orderedPfx _ (((down (swapState s 0 (s.heap.length - 1)) 0
    (s.heap.length - 1)).1).heap.dropLast).length
  rw [List.length_dropLast, hlend]
  exact orderedPfx_dropLast _ _ (by omega) hordn

theorem pop_item_eq_root (s : TTLStore) (hne : s.heap.length ≠ 0) :
    (heapPop s).1 = getI s.heap 0 := by
  show getI ((down (swapState s 0 (s.heap.length - 1)) 0
    (s.heap.length - 1)).1).heap (s.heap.length - 1) = getI s.heap 0
  rw [down_getI_ge _ 0 (s.heap.length - 1) (s.heap.length - 1) (Nat.le_refl _),
    getI_swap_snd s 0 (s.heap.length - 1) (by omega) (by omega)]

/-! ### Heap membership through the operations -/

theorem mem_swap (s : TTLStore) (i j : Nat) (x : TTLItem)
    (hx : x ∈ (swapState s i j).heap) : x ∈ s.heap := by
  revert hx
  unfold swapState
  split
  · rename_i hb
    intro hx
    rcases List.mem_or_eq_of_mem_set hx with h | h
    · rcases List.mem_or_eq_of_mem_set h with h2 | h2
      · exact h2
      · rw [h2]
        exact getI_mem s.heap j hb.2
    · rw [h]
      exact getI_mem s.heap i hb.1
  · exact fun hx => hx

theorem mem_upF (fuel : Nat) :
    ∀ s j x, x ∈ ((upF fuel s j).1).heap → x ∈ s.heap := by
  induction fuel with
  | zero => intro s j x hx; exact hx
  | succ fuel ih =>
    intro s j x
    simp only [upF]
    split
    · exact fun hx => hx
    · split
      · intro hx
        exact mem_swap s _ j x (ih _ _ x hx)
      · exact fun hx => hx

theorem mem_downF (fuel : Nat) :
    ∀ s i n x, x ∈ ((downF fuel s i n).1).heap → x ∈ s.heap := by
  induction fuel with
  | zero => intro s i n x hx; exact hx
  | succ fuel ih =>
    intro s i n x
    simp only [downF]
    split
    · exact fun hx => hx
    · split <;> split
      · intro hx
        exact mem_swap s _ _ x (ih _ _ _ x hx)
      · exact fun hx => hx
      · intro hx
        exact mem_swap s _ _ x (ih _ _ _ x hx)
      · exact fun hx => hx

theorem mem_dropLast (l : List TTLItem) (x : TTLItem) (hx : x ∈ l.dropLast) :
    x ∈ l :=
  (List.dropLast_sublist l).subset hx

theorem mem_pop (s : TTLStore) (x : TTLItem) (hx : x ∈ ((heapPop s).2).heap) :
    x ∈ s.heap := by
  have hx2 : x ∈ ((down (swapState s 0 (s.heap.length - 1)) 0
      (s.heap.length - 1)).1).heap := mem_dropLast _ x hx
  exact mem_swap s 0 _ x (mem_downF _ _ _ _ x hx2)

theorem mem_heapRemove (s : TTLStore) (i : Nat) (x : TTLItem)
    (hx : x ∈ (heapRemove s i).heap) : x ∈ s.heap := by
  simp only [heapRemove] at hx
  have hx2 := mem_dropLast _ x hx
  revert hx2
  split
  · split
    · intro hx2
      exact mem_swap s i _ x (mem_downF _ _ _ _ x hx2)
    · intro hx2
      exact mem_swap s i _ x (mem_downF _ _ _ _ x (mem_upF _ _ _ x hx2))
  · exact fun hx2 => hx2

theorem mem_setTTL (s : TTLStore) (k : String) (e : Int) (x : TTLItem)
    (hx : x ∈ (SetTTL s k e).heap) : x ∈ s.heap ∨ x = ⟨k, e⟩ := by
  cases hm : lookupIdx s.entries k with
  | none =>
    rw [SetTTL, hm] at hx
    have hx2 := mem_upF _ _ _ x hx
    rcases List.mem_append.mp hx2 with h | h
    · exact Or.inl h
    · exact Or.inr (List.mem_singleton.mp h)
  | some oldIdx =>
    rw [SetTTL, hm] at hx
    have hx2 := mem_upF _ _ _ x hx
    rcases List.mem_append.mp hx2 with h | h
    · exact Or.inl (mem_heapRemove s oldIdx x h)
    · exact Or.inr (List.mem_singleton.mp h)

theorem mem_getI (l : List TTLItem) (x : TTLItem) (hx : x ∈ l) :
    ∃ m, m < l.length ∧ getI l m = x := by
  induction l with
  | nil => simp at hx
  | cons y t ih =>
    rcases List.mem_cons.mp hx with h | h
    · exact ⟨0, by simp, h.symm⟩
    · obtain ⟨m, hm, hg⟩ := ih h
      exact ⟨m + 1, by simpa using hm, hg⟩

theorem root_min_mem (s : TTLStore) (hord : orderedHeap s) (x : TTLItem)
    (hx : x ∈ s.heap) : (getI s.heap 0).expiresAt ≤ x.expiresAt := by
  obtain ⟨m, hm, hg⟩ := mem_getI s.heap x hx
  rw [← hg]
  exact orderedPfx_root_min s.heap s.heap.length hord m hm

theorem setTTL_ordered (s : TTLStore) (k : String) (e : Int) (hg : good s)
    (hord : orderedHeap s) : orderedHeap (SetTTL s k e) := by
  cases hm : lookupIdx s.entries k with
  | none =>
    rw [SetTTL, hm]
    exact push_ordered s ⟨k, e⟩ hord
  | some oldIdx =>
    rw [SetTTL, hm]
    exact push_ordered _ ⟨k, e⟩
      (remove_ordered s oldIdx hord (hg.1 k oldIdx hm).1)

theorem pop_heap_length (s : TTLStore) :
    ((heapPop s).2).heap.length = s.heap.length - 1 := by
  show (((down (swapState s 0 (s.heap.length - 1)) 0
    (s.heap.length - 1)).1).heap.dropLast).length = _
  rw [List.length_dropLast, down_heap_length, swap_heap_length]

/-- Properties of one drain batch at instant `now`, starting from an ordered
heap: the result stays ordered, the emitted (fired) items are exactly expired
ones in nondecreasing expiration order, all of them bound below the remaining
heap, the remaining heap holds only unexpired items, and both emitted and
remaining items come from the original heap. -/
theorem drainF_spec9 (fuel : Nat) :
    ∀ s now, s.heap.length ≤ fuel → orderedHeap s →
    orderedHeap ((drainF fuel s now).1) ∧
    (∀ f, f ∈ (drainF fuel s now).2 → f.expiresAt ≤ now) ∧
    List.Pairwise (fun a b => a.expiresAt ≤ b.expiresAt) ((drainF fuel s now).2) ∧
    (∀ f, f ∈ (drainF fuel s now).2 → ∀ x, x ∈ ((drainF fuel s now).1).heap →
      f.expiresAt ≤ x.expiresAt) ∧
    (∀ x, x ∈ ((drainF fuel s now).1).heap → now < x.expiresAt) ∧
    (∀ x, x ∈ ((drainF fuel s now).1).heap → x ∈ s.heap) ∧
    (∀ f, f ∈ (drainF fuel s now).2 → f ∈ s.heap) := by
  induction fuel with
  | zero =>
    intro s now hfuel hord
    have hnil : s.heap = [] := List.length_eq_zero.mp (by omega)
    refine ⟨hord, fun f hf => absurd hf (by simp [drainF]), by simp [drainF],
      fun f hf => absurd hf (by simp [drainF]), ?_, fun x hx => hx,
      fun f hf => absurd hf (by simp [drainF])⟩
    intro x hx
    rw [show (drainF 0 s now).1 = s from rfl, hnil] at hx
    exact absurd hx (List.not_mem_nil x)
  | succ fuel ih =>
    intro s now hfuel hord
    simp only [drainF]
    split
    · rename_i hstop
      refine ⟨hord, fun f hf => absurd hf (List.not_mem_nil f), List.Pairwise.nil,
        fun f hf => absurd hf (List.not_mem_nil f), ?_, fun x hx => hx,
        fun f hf => absurd hf (List.not_mem_nil f)⟩
      intro x hx
      rcases hstop with h0 | hroot
      · rw [List.length_eq_zero.mp h0] at hx
        exact absurd hx (List.not_mem_nil x)
      · exact lt_of_lt_of_le hroot (root_min_mem s hord x hx)
    · rename_i hgo
      have hne : s.heap.length ≠ 0 := fun h => hgo (Or.inl h)
      have hroot : (getI s.heap 0).expiresAt ≤ now :=
        not_lt.mp (fun h => hgo (Or.inr h))
      have hord2 : orderedHeap ({ (heapPop s).2 with
          entries := eraseKey (heapPop s).2.entries (heapPop s).1.key } : TTLStore) :=
        pop_ordered s hord hne
      have hlen2 : ({ (heapPop s).2 with
          entries := eraseKey (heapPop s).2.entries (heapPop s).1.key } :
            TTLStore).heap.length ≤ fuel := by
        show ((heapPop s).2).heap.length ≤ fuel
        rw [pop_heap_length]
        omega
      obtain ⟨h1, h2, h3, h4, h5, h6, h7⟩ :=
        ih { (heapPop s).2 with
          entries := eraseKey (heapPop s).2.entries (heapPop s).1.key } now hlen2 hord2
      have hsub2 : ∀ x, x ∈ ({ (heapPop s).2 with
          entries := eraseKey (heapPop s).2.entries (heapPop s).1.key } :
            TTLStore).heap → x ∈ s.heap :=
        fun x hx => mem_pop s x hx
      have hrootle : ∀ x, x ∈ ({ (heapPop s).2 with
          entries := eraseKey (heapPop s).2.entries (heapPop s).1.key } :
            TTLStore).heap → (getI s.heap 0).expiresAt ≤ x.expiresAt :=
        fun x hx => root_min_mem s hord x (hsub2 x hx)
      have hitem : (heapPop s).1 = getI s.heap 0 := pop_item_eq_root s hne
      refine ⟨h1, ?_, ?_, ?_, h5, ?_, ?_⟩
      · intro f hf
        rcases List.mem_cons.mp hf with h | h
        · rw [h, hitem]
          exact hroot
        · exact h2 f h
      · refine List.pairwise_cons.mpr ⟨?_, h3⟩
        intro b hb
        rw [hitem]
        exact root_min_mem s hord b (hsub2 b (h7 b hb))
      · intro f hf x hx
        rcases List.mem_cons.mp hf with h | h
        · rw [h, hitem]
          exact hrootle x (h6 x hx)
        · exact h4 f h x hx
      · intro x hx
        exact hsub2 x (h6 x hx)
      · intro f hf
        rcases List.mem_cons.mp hf with h | h
        · rw [h, hitem]
          exact getI_mem s.heap 0 (by omega)
        · exact hsub2 f (h7 f h)

/-- `drainF_spec9` stated for one full drain batch `drain`. -/
theorem drain_spec (s : TTLStore) (now : Int) (hord : orderedHeap s) :
    orderedHeap ((drain s now).1) ∧
    (∀ f, f ∈ (drain s now).2 → f.expiresAt ≤ now) ∧
    List.Pairwise (fun a b => a.expiresAt ≤ b.expiresAt) ((drain s now).2) ∧
    (∀ f, f ∈ (drain s now).2 → ∀ x, x ∈ ((drain s now).1).heap →
      f.expiresAt ≤ x.expiresAt) ∧
    (∀ x, x ∈ ((drain s now).1).heap → now < x.expiresAt) ∧
    (∀ x, x ∈ ((drain s now).1).heap → x ∈ s.heap) ∧
    (∀ f, f ∈ (drain s now).2 → f ∈ s.heap) :=
  drainF_spec9 s.heap.length s now (Nat.le_refl _) hord

/-! ### Well-timed operation sequences and the monotonic-expiration theorem -/

/-- Well-timed operation sequences, relative to a lower bound `t` on the
current instant: the physical clock never goes backwards, so each drain batch
runs at an instant at least the previous one, and every `SetTTL` issued by
the dispatcher's `EXPIRE` carries an expiration `now + seconds ≥ now`, i.e.
at least the instant it is issued. -/
def WT : Int → List Op → Prop
  | _, [] => True
  | t, Op.setTTL _ e :: rest => t ≤ e ∧ WT t rest
  | t, Op.drainOp now :: rest => t ≤ now ∧ WT now rest
  | t, Op.flushAll :: rest => WT t rest

/-- The run-trace invariant at clock bound `t`: consistent ordered state, the
fired trace is nondecreasing in expiration time, below every pending heap
item, and below the clock. -/
def Inv9 (t : Int) (acc : TTLStore × List TTLItem) : Prop :=
  good acc.1 ∧ orderedHeap acc.1 ∧
  List.Pairwise (fun a b => a.expiresAt ≤ b.expiresAt) acc.2 ∧
  (∀ f, f ∈ acc.2 → ∀ x, x ∈ acc.1.heap → f.expiresAt ≤ x.expiresAt) ∧
  (∀ f, f ∈ acc.2 → f.expiresAt ≤ t)

theorem stepOp_inv9_set (t : Int) (acc : TTLStore × List TTLItem) (k : String)
    (e : Int) (hle : t ≤ e) (h : Inv9 t acc) :
    Inv9 t (stepOp acc (Op.setTTL k e)) := by
  obtain ⟨s, F⟩ := acc
  obtain ⟨hg, hord, hpw, hbelow, hbnd⟩ := h
  refine ⟨(setTTL_spec s k e hg).1, setTTL_ordered s k e hg hord, hpw, ?_, hbnd⟩
  intro f hf x hx
  rcases mem_setTTL s k e x hx with h1 | h1
  · exact hbelow f hf x h1
  · rw [h1]
    exact le_trans (hbnd f hf) hle

theorem stepOp_inv9_drain (t now : Int) (acc : TTLStore × List TTLItem)
    (hle : t ≤ now) (h : Inv9 t acc) :
    Inv9 now (stepOp acc (Op.drainOp now)) := by
  obtain ⟨s, F⟩ := acc
  obtain ⟨hg, hord, hpw, hbelow, hbnd⟩ := h
  obtain ⟨h1, h2, h3, h4, h5, h6, h7⟩ := drain_spec s now hord
  refine ⟨drainF_good _ _ _ hg, h1, ?_, ?_, ?_⟩
  · refine (List.pairwise_append).mpr ⟨hpw, h3, ?_⟩
    intro a ha b hb
    exact hbelow a ha b (h7 b hb)
  · intro f hf x hx
    rcases List.mem_append.mp hf with hin | hin
    · exact hbelow f hin x (h6 x hx)
    · exact h4 f hin x hx
  · intro f hf
    rcases List.mem_append.mp hf with hin | hin
    · exact le_trans (hbnd f hin) hle
    · exact h2 f hin

theorem stepOp_inv9_flush (t : Int) (acc : TTLStore × List TTLItem)
    (h : Inv9 t acc) : Inv9 t (stepOp acc Op.flushAll) := by
  obtain ⟨s, F⟩ := acc
  obtain ⟨hg, hord, hpw, hbelow, hbnd⟩ := h
  refine ⟨flushAll_good s, ?_, hpw, ?_, hbnd⟩
  · intro c hc0 hcn
    have h0 : ((stepOp (s, F) Op.flushAll).1).heap.length = 0 := rfl
    omega
  · intro f hf x hx
    exact absurd hx (List.not_mem_nil x)

theorem foldl_inv9 (ops : List Op) :
    ∀ t acc, WT t ops → Inv9 t acc →
    ∃ t2, Inv9 t2 (List.foldl stepOp acc ops) := by
  induction ops with
  | nil => exact fun t acc _ h => ⟨t, h⟩
  | cons op rest ih =>
    intro t acc hwt h
    cases op with
    | setTTL k e => exact ih t _ hwt.2 (stepOp_inv9_set t acc k e hwt.1 h)
    | drainOp now => exact ih now _ hwt.2 (stepOp_inv9_drain t now acc hwt.1 h)
    | flushAll => exact ih t _ hwt (stepOp_inv9_flush t acc h)

theorem exec_inv9 (ops : List Op) (t0 : Int) (hwt : WT t0 ops) :
    ∃ t2, Inv9 t2 (exec ops) := by
  refine foldl_inv9 ops t0 (initTTL, []) hwt ⟨init_good, ?_, List.Pairwise.nil, ?_, ?_⟩
  · intro c hc0 hcn
    have h0 : (initTTL, ([] : List TTLItem)).1.heap.length = 0 := rfl
    omega
  · intro f hf
    exact absurd hf (List.not_mem_nil f)
  · intro f hf
    exact absurd hf (List.not_mem_nil f)

/-! ### Claims C1, C6 and C9 -/

/-- Claim C1: for every finite sequence of SetTTL, expiration-drain and
FlushAll operations starting from a freshly constructed scheduler, the
key-to-entry map and the heap remain mutually consistent -- every key in the
map has exactly one corresponding entry in the heap (at the recorded index),
and every entry in the heap is reachable from the map under its key. -/
theorem claim_C1_heap_map_consistent (ops : List Op) :
    (∀ k i, lookupIdx ((exec ops).1).entries k = some i →
      i < ((exec ops).1).heap.length ∧ (getI ((exec ops).1).heap i).key = k ∧
      (∀ j, j < ((exec ops).1).heap.length →
        (getI ((exec ops).1).heap j).key = k → j = i)) ∧
    (∀ j, j < ((exec ops).1).heap.length →
      lookupIdx ((exec ops).1).entries ((getI ((exec ops).1).heap j).key) = some j) := by
  have hg := exec_good ops
  constructor
  · intro k i hm
    obtain ⟨hlt, hkey⟩ := hg.1 k i hm
    exact ⟨hlt, hkey, good_unique _ hg k i hm⟩
  · exact hg.2

/-- Witness for C1 at a concrete operation sequence. -/
theorem claim_C1_witness :
    lookupIdx ((exec [Op.setTTL "a" 5, Op.setTTL "b" 3]).1).entries
      ((getI ((exec [Op.setTTL "a" 5, Op.setTTL "b" 3]).1).heap 0).key) = some 0 :=
  (claim_C1_heap_map_consistent [Op.setTTL "a" 5, Op.setTTL "b" 3]).2 0 (by decide)

/-- Claim C6: for every key and pair of expiration times, after
`SetTTL key t1` followed by `SetTTL key t2` (from any consistent scheduler
state) exactly one TimerEntry for that key exists, in both heap and map, and
`GetTTL key` returns `(t2, found = true)`. -/
theorem claim_C6_overwrite (s : TTLStore) (k : String) (t1 t2 : Int)
    (hg : good s) :
    (∃ p, lookupIdx ((SetTTL (SetTTL s k t1) k t2)).entries k = some p ∧
      p < ((SetTTL (SetTTL s k t1) k t2)).heap.length ∧
      getI ((SetTTL (SetTTL s k t1) k t2)).heap p = ⟨k, t2⟩ ∧
      (∀ j, j < ((SetTTL (SetTTL s k t1) k t2)).heap.length →
        (getI ((SetTTL (SetTTL s k t1) k t2)).heap j).key = k → j = p)) ∧
    GetTTL (SetTTL (SetTTL s k t1) k t2) k = some t2 := by
  have hg1 := (setTTL_spec s k t1 hg).1
  obtain ⟨hg2, p, hlk, hp, hitem⟩ := setTTL_spec (SetTTL s k t1) k t2 hg1
  exact ⟨⟨p, hlk, hp, hitem, good_unique _ hg2 k p hlk⟩,
    setTTL_getTTL (SetTTL s k t1) k t2 hg1⟩

/-- Witness for C6 at the fresh scheduler with concrete times. -/
theorem claim_C6_witness :
    GetTTL (SetTTL (SetTTL initTTL "a" 1) "a" 2) "a" = some 2 :=
  (claim_C6_overwrite initTTL "a" 1 2 init_good).2

/-- Claim C9: for all interleavings of insertion order (any well-timed
sequence of SetTTL, drain and FlushAll operations -- the physical clock is
nondecreasing and, as the dispatcher's EXPIRE guarantees, every scheduled
expiration is no earlier than the instant it is scheduled at), if entry A's
expiration time is strictly earlier than entry B's, then A's deletion
callback is dispatched no later than B's: in the fired trace, A's position
precedes B's.  Callback "firing" is modelled as the worker's dispatch order
(`go s.DeleteFn(key)` spawn order); the goroutine scheduler beyond that point
is outside the sequential embedding. -/
theorem claim_C9_monotonic_expiration (ops : List Op) (t0 : Int)
    (hwt : WT t0 ops) (i j : Nat)
    (hi : i < (exec ops).2.length) (hj : j < (exec ops).2.length)
    (hlt : ((exec ops).2.get ⟨i, hi⟩).expiresAt <
      ((exec ops).2.get ⟨j, hj⟩).expiresAt) :
    i < j := by
  obtain ⟨t2, hinv⟩ := exec_inv9 ops t0 hwt
  have hpw := hinv.2.2.1
  by_contra hcon
  push_neg at hcon
  rcases Nat.lt_or_ge j i with hji | hij
  · have hle := (List.pairwise_iff_get.mp hpw) ⟨j, hj⟩ ⟨i, hi⟩ hji
    exact absurd hle (not_le.mpr hlt)
  · have he : i = j := by omega
    subst he
    exact lt_irrefl _ hlt

/-- Witness for C9 at a concrete well-timed sequence: two keys inserted in
order, drained in one batch; the earlier expiration fires first. -/
theorem claim_C9_witness :
    WT 0 [Op.setTTL "a" 1, Op.setTTL "b" 5, Op.drainOp 10] ∧ (0 : Nat) < 1 := by
  have hwt : WT 0 [Op.setTTL "a" 1, Op.setTTL "b" 5, Op.drainOp 10] :=
    ⟨by decide, by decide, by decide, trivial⟩
  exact ⟨hwt, claim_C9_monotonic_expiration
    [Op.setTTL "a" 1, Op.setTTL "b" 5, Op.drainOp 10] 0 hwt 0 1
    (by decide) (by decide) (by decide)⟩

/-! ### The RESP2 wire codec (`protocol/resp2.go`)

Go byte strings are embedded as `List Char`, one `Char` per byte (all the
protocol's framing bytes are ASCII; content bytes are opaque). -/

/-- The decimal digit byte `'0' + d`, as produced by `strconv`'s integer
formatting. -/
def digitChar (d : Nat) : Char :=
  Char.ofNat (48 + d)

/-- The base-10 digit string of a natural number, most significant digit
first -- the output of Go's `strconv.Itoa`/`FormatInt` for a non-negative
value (via Mathlib's `Nat.digits`, which lists digits least significant
first). -/
def natDigits (n : Nat) : List Char :=
  if n = 0 then ['0'] else (Nat.digits 10 n).reverse.map digitChar

/-- `strconv.Itoa` for a non-negative value, as a `String`. -/
def natStr (n : Nat) : String :=
  String.mk (natDigits n)

/-- `strconv.FormatInt(n, 10)`. -/
def formatInt (n : Int) : String :=
  if n < 0 then "-" ++ natStr n.natAbs else natStr n.toNat

/-- The digit-accumulation loop of `strconv.ParseUint` (base 10): consume
decimal digits left to right; any non-digit byte is an error. -/
def digitsToNat : List Char → Nat → Option Nat
  | [], acc => some acc
  | c :: t, acc =>
    if c.isDigit then digitsToNat t (acc * 10 + (c.toNat - 48)) else none

/-- `strconv.Atoi` (= `ParseInt(s, 10, 0)` on a 64-bit platform): an optional
sign, then one or more decimal digits, rejected on empty input, stray bytes,
or overflow of the int64 range. -/
def goAtoi (s : List Char) : Option Int :=
  match s with
  | [] => none
  | c :: rest =>
    if c = '+' then
      match rest with
      | [] => none
      | _ => (digitsToNat rest 0).bind fun v =>
          if v ≤ 9223372036854775807 then some ((v : Nat) : Int) else none
    else if c = '-' then
      match rest with
      | [] => none
      | _ => (digitsToNat rest 0).bind fun v =>
          if v ≤ 9223372036854775808 then some (-(v : Int)) else none
    else
      (digitsToNat (c :: rest) 0).bind fun v =>
        if v ≤ 9223372036854775807 then some ((v : Nat) : Int) else none

/-- Two's-complement wrap of an unbounded integer into the int64 range: the
semantics of Go's signed 64-bit arithmetic, whose overflow wraps. -/
def wrap64 (x : Int) : Int :=
  (x + 9223372036854775808) % 18446744073709551616 - 9223372036854775808

theorem wrap64_eq_self (x : Int) (h1 : -9223372036854775808 ≤ x)
    (h2 : x ≤ 9223372036854775807) : wrap64 x = x := by
  unfold wrap64
  omega

/-- Decode errors of `DecodeCommand`.  `tooFewElements` carries Go's exact
`errors.New` text; the other messages interpolate their payloads (Go quotes
them with `%q`). -/
inductive DecErr where
  | eofLine
  | notArray (line : List Char)
  | badArrayLen (line : List Char)
  | tooFewElements
  | notBulk (line : List Char)
  | badBulkLen (line : List Char)
  | shortRead
deriving DecidableEq

/-- The error text (`err.Error()` in Go). -/
def DecErr.message : DecErr → String
  | .eofLine => "EOF"
  | .notArray line => "expected array (*), got: " ++ String.mk line
  | .badArrayLen _ => "invalid array length: invalid syntax"
  | .tooFewElements => "command must contain at least one element"
  | .notBulk line => "expected bulk string ($), got: " ++ String.mk line
  | .badBulkLen _ => "invalid bulk string length: invalid syntax"
  | .shortRead => "unexpected EOF"

/-- Result of `DecodeCommand`.  Besides the Go signature's value/error pair,
`panicked` records a run-time panic (the negative-length slice expressions in
the bulk-string loop), with the offending parsed length. -/
inductive DecodeResult where
  | ok (cmd : String) (args : List String)
  | fail (e : DecErr)
  | panicked (length : Int)
deriving DecidableEq

/-- Result of the bulk-string reading loop inside `DecodeCommand`. -/
inductive BulksResult where
  | ok (parts : List String) (rest : List Char)
  | fail (e : DecErr)
  | panicked (length : Int)
deriving DecidableEq

/-- `bufio.Reader.ReadString('\n')`: everything up to and including the first
newline; `none` (an I/O error) when no newline remains. -/
def splitAtNl : List Char → Option (List Char × List Char)
  | [] => none
  | c :: t =>
    if c = '\n' then some ([c], t)
    else
      match splitAtNl t with
      | none => none
      | some (l, r) => some (c :: l, r)

/-- `strings.TrimSuffix(line, "\r\n")`. -/
def trimCRLF (l : List Char) : List Char :=
  if l.length ≥ 2 ∧ l.drop (l.length - 2) = ['\r', '\n'] then
    l.take (l.length - 2)
  else l

/-- `readLine` of `resp2.go`: `ReadString('\n')` then trim one `"\r\n"`. -/
def readLine (s : List Char) : Option (List Char × List Char) :=
  (splitAtNl s).map fun p => (trimCRLF p.1, p.2)

/-- The element loop of `DecodeCommand`: for each of `count` elements, read a
`$<length>` header line, then `length+2` content bytes, keeping the first
`length`.  The buffer size `length+2` is computed in int64 arithmetic, so it
wraps (`wrap64`); `make([]byte, n)` panics for a negative (possibly wrapped)
`n` and the slice `buf[:length]` panics for any negative `length` that
survives `ReadFull`, both modelled by `panicked`. -/
def decodeBulks : Nat → List Char → BulksResult
  | 0, s => .ok [] s
  | count + 1, s =>
    match readLine s with
    | none => .fail .eofLine
    | some (line, rest) =>
      match line with
      | '$' :: lenStr =>
        match goAtoi lenStr with
        | none => .fail (.badBulkLen line)
        | some len =>
          if wrap64 (len + 2) < 0 then .panicked len
          else if rest.length < (wrap64 (len + 2)).toNat then .fail .shortRead
          else if len < 0 then .panicked len
          else
            match decodeBulks count (rest.drop (wrap64 (len + 2)).toNat) with
            | .ok parts r =>
              .ok (String.mk ((rest.take (wrap64 (len + 2)).toNat).take len.toNat) :: parts) r
            | .fail e => .fail e
            | .panicked l => .panicked l
      | _ => .fail (.notBulk line)

/-- `protocol.DecodeCommand`: a `*<count>` header line with `count ≥ 1`, then
`count` bulk strings; the first is the command, the rest its arguments. -/
def DecodeCommand (input : List Char) : DecodeResult :=
  match readLine input with
  | none => .fail .eofLine
  | some (line, rest) =>
    match line with
    | '*' :: cntStr =>
      match goAtoi cntStr with
      | none => .fail (.badArrayLen line)
      | some count =>
        if count < 1 then .fail .tooFewElements
        else
          match decodeBulks count.toNat rest with
          | .ok parts _ =>
            match parts with
            | [] => .fail .tooFewElements
            | c :: a => .ok c a
          | .fail e => .fail e
          | .panicked l => .panicked l
    | _ => .fail (.notArray line)

/-- `EncodeSimpleString`: `+<text>\r\n`. -/
def EncodeSimpleString (s : String) : String :=
  "+" ++ s ++ "\r\n"

/-- `EncodeError`: `-<text>\r\n`. -/
def EncodeError (e : String) : String :=
  "-" ++ e ++ "\r\n"

/-- `EncodeInteger`: `:<decimal>\r\n`. -/
def EncodeInteger (n : Int) : String :=
  ":" ++ formatInt n ++ "\r\n"

/-- `EncodeBulkString` on a non-nil `*string`: `$<len>\r\n<bytes>\r\n` (the
nil pointer case returns `"$-1\r\n"`; every call site passes a present
value, and `EncodeNullBulkString` covers the null reply). -/
def EncodeBulkString (s : String) : String :=
  "$" ++ natStr s.length ++ "\r\n" ++ s ++ "\r\n"

/-- `EncodeNullBulkString`: `$-1\r\n`. -/
def EncodeNullBulkString : String :=
  "$-1\r\n"

/-- `EncodeNullArray`: `*-1\r\n`. -/
def EncodeNullArray : String :=
  "*-1\r\n"

/-- The accumulation loop of `EncodeArray`
(`result += EncodeBulkString(&element)`). -/
def bulksConcat : List String → String
  | [] => ""
  | e :: t => EncodeBulkString e ++ bulksConcat t

/-- `EncodeArray` on a non-nil slice: `*<len>\r\n` then each element
bulk-encoded (the nil slice case returns `"*-1\r\n"`; the dispatcher only
passes non-nil slices). -/
def EncodeArray (elements : List String) : String :=
  "*" ++ natStr elements.length ++ "\r\n" ++ bulksConcat elements

/-- The runtime-typed values `EncodeArrayMixed` dispatches on, as the closed
variant the code's type switch ranges over at its call sites (string, int64,
nested `[]interface{}`, nil). -/
inductive RespVal where
  | str (s : String)
  | int (n : Int)
  | arr (l : List RespVal)
  | null

mutual

/-- `encodeElement`: dispatch one element by runtime type. -/
def encodeElement : RespVal → String
  | .null => EncodeNullBulkString
  | .str s => EncodeBulkString s
  | .int n => EncodeInteger n
  | .arr l => EncodeArrayMixed l

/-- `EncodeArrayMixed` on a non-nil slice. -/
def EncodeArrayMixed (l : List RespVal) : String :=
  "*" ++ natStr l.length ++ "\r\n" ++ encodeElements l

/-- The accumulation loop of `EncodeArrayMixed`. -/
def encodeElements : List RespVal → String
  | [] => ""
  | e :: t => encodeElement e ++ encodeElements t

end

/-! ### Correctness lemmas for the codec -/

theorem digitChar_isDigit (d : Nat) (h : d < 10) : (digitChar d).isDigit = true := by
  interval_cases d <;> decide

theorem digitChar_toNat (d : Nat) (h : d < 10) : (digitChar d).toNat = 48 + d := by
  interval_cases d <;> decide

theorem digitChar_ne_plus (d : Nat) (h : d < 10) : digitChar d ≠ '+' := by
  interval_cases d <;> decide

theorem digitChar_ne_minus (d : Nat) (h : d < 10) : digitChar d ≠ '-' := by
  interval_cases d <;> decide

theorem digitChar_ne_nl (d : Nat) (h : d < 10) : digitChar d ≠ '\n' := by
  interval_cases d <;> decide

theorem natDigits_no_nl (n : Nat) : '\n' ∉ natDigits n := by
  unfold natDigits
  split
  · decide
  · intro hmem
    rcases List.mem_map.mp hmem with ⟨d, hd, hdc⟩
    have hd10 : d < 10 := Nat.digits_lt_base (by norm_num) (List.mem_reverse.mp hd)
    exact digitChar_ne_nl d hd10 hdc

theorem digitsToNat_cons (c : Char) (t : List Char) (acc : Nat) :
    digitsToNat (c :: t) acc =
      if c.isDigit then digitsToNat t (acc * 10 + (c.toNat - 48)) else none := rfl

theorem digitsToNat_append (l1 l2 : List Char) (acc : Nat) :
    digitsToNat (l1 ++ l2) acc =
      match digitsToNat l1 acc with
      | some v => digitsToNat l2 v
      | none => none := by
  induction l1 generalizing acc with
  | nil => rfl
  | cons c t ih =>
    rw [List.cons_append, digitsToNat_cons, digitsToNat_cons]
    by_cases hc : c.isDigit
    · rw [if_pos hc, if_pos hc, ih]
    · rw [if_neg hc, if_neg hc]

theorem digitsToNat_revDigits (D : List Nat) (hD : ∀ d ∈ D, d < 10) (acc : Nat) :
    digitsToNat (D.reverse.map digitChar) acc =
      some (acc * 10 ^ D.length + Nat.ofDigits 10 D) := by
  induction D generalizing acc with
  | nil => simp [digitsToNat, Nat.ofDigits]
  | cons d D ih =>
    rw [List.reverse_cons, List.map_append, digitsToNat_append,
        ih (fun x hx => hD x (List.mem_cons_of_mem d hx))]
    show digitsToNat [digitChar d] _ = _
    rw [digitsToNat_cons, if_pos (digitChar_isDigit d (hD d (List.mem_cons_self d D))),
        digitChar_toNat d (hD d (List.mem_cons_self d D))]
    show some _ = _
    congr 1
    rw [Nat.add_sub_cancel_left, Nat.ofDigits_cons, List.length_cons, pow_succ]
    ring

theorem goAtoi_natDigits (n : Nat) (h : n ≤ 9223372036854775807) :
    goAtoi (natDigits n) = some (n : Int) := by
  by_cases h0 : n = 0
  · subst h0; decide
  · have hD : natDigits n = (Nat.digits 10 n).reverse.map digitChar := by
      unfold natDigits; rw [if_neg h0]
    have hne : Nat.digits 10 n ≠ [] := Nat.digits_ne_nil_iff_ne_zero.mpr h0
    cases hL : (Nat.digits 10 n).reverse.map digitChar with
    | nil =>
      exfalso
      have := congrArg List.length hL
      simp at this
      exact hne this
    | cons c t =>
      have hcmem : c ∈ (Nat.digits 10 n).reverse.map digitChar := by
        rw [hL]; exact List.mem_cons_self c t
      rcases List.mem_map.mp hcmem with ⟨d, hd, hdc⟩
      have hd10 : d < 10 := Nat.digits_lt_base (by norm_num) (List.mem_reverse.mp hd)
      have hplus : c ≠ '+' := hdc ▸ digitChar_ne_plus d hd10
      have hminus : c ≠ '-' := hdc ▸ digitChar_ne_minus d hd10
      rw [hD, hL]
      show goAtoi (c :: t) = _
      simp only [goAtoi]
      rw [if_neg hplus, if_neg hminus, ← hL,
          digitsToNat_revDigits _ (fun x hx => Nat.digits_lt_base (by norm_num) hx) 0]
      simp only [Option.bind_some, Option.some_bind]
      rw [Nat.zero_mul, Nat.zero_add, Nat.ofDigits_digits]
      rw [if_pos h]

theorem splitAtNl_append (X R : List Char) (hX : '\n' ∉ X) :
    splitAtNl (X ++ '\n' :: R) = some (X ++ ['\n'], R) := by
  induction X with
  | nil => simp [splitAtNl]
  | cons c t ih =>
    have hc : c ≠ '\n' := fun h => hX (h ▸ List.mem_cons_self c t)
    have ht : '\n' ∉ t := fun h => hX (List.mem_cons_of_mem c h)
    rw [List.cons_append]
    show (if c = '\n' then _ else _) = _
    rw [if_neg hc, ih ht]
    rfl

theorem trimCRLF_append (X : List Char) : trimCRLF (X ++ ['\r', '\n']) = X := by
  have harith : (X ++ ['\r', '\n']).length - 2 = X.length := by
    simp
  unfold trimCRLF
  rw [harith, if_pos]
  · exact List.take_left' rfl
  · exact ⟨by simp, List.drop_left' rfl⟩

theorem readLine_encoded (X R : List Char) (hX : '\n' ∉ X) :
    readLine (X ++ '\r' :: '\n' :: R) = some (X, R) := by
  have hre : X ++ '\r' :: '\n' :: R = (X ++ ['\r']) ++ '\n' :: R := by
    simp
  have hX2 : '\n' ∉ X ++ ['\r'] := by
    intro h
    rcases List.mem_append.mp h with h1 | h1
    · exact hX h1
    · simp at h1
  rw [readLine, hre, splitAtNl_append _ _ hX2]
  have h3 : (X ++ ['\r']) ++ ['\n'] = X ++ ['\r', '\n'] := by simp
  show some (trimCRLF ((X ++ ['\r']) ++ ['\n']), R) = some (X, R)
  rw [h3, trimCRLF_append]

theorem data_append (a b : String) : (a ++ b).data = a.data ++ b.data := rfl

theorem data_mk (l : List Char) : (String.mk l).data = l := rfl

theorem decodeBulks_cons (count : Nat) (s : String) (tail : List Char)
    (hs : s.length <= 9223372036854775805) :
    decodeBulks (count + 1) ((EncodeBulkString s).data ++ tail) =
      match decodeBulks count tail with
      | .ok parts r => .ok (s :: parts) r
      | .fail e => .fail e
      | .panicked l => .panicked l := by
  have h1 : ("$" : String).data = ['$'] := rfl
  have h2 : ("\r\n" : String).data = ['\r', '\n'] := rfl
  have hform : (EncodeBulkString s).data ++ tail =
      ('$' :: natDigits s.length) ++ '\r' :: '\n' :: (s.data ++ '\r' :: '\n' :: tail) := by
    simp only [EncodeBulkString, natStr, data_append, data_mk, h1, h2]
    simp [List.append_assoc]
  have hnl : '\n' ∉ '$' :: natDigits s.length := by
    intro h
    rcases List.mem_cons.mp h with h1 | h1
    · exact absurd h1 (by decide)
    · exact natDigits_no_nl _ h1
  rw [hform]
  show decodeBulks (count + 1) _ = _
  simp only [decodeBulks]
  rw [readLine_encoded _ _ hnl]
  show (match goAtoi (natDigits s.length) with
    | none => BulksResult.fail (DecErr.badBulkLen ('$' :: natDigits s.length))
    | some len =>
      if wrap64 (len + 2) < 0 then BulksResult.panicked len
      else
        if (s.data ++ '\r' :: '\n' :: tail).length < (wrap64 (len + 2)).toNat then BulksResult.fail DecErr.shortRead
        else
          if len < 0 then BulksResult.panicked len
          else
            match decodeBulks count (List.drop (wrap64 (len + 2)).toNat (s.data ++ '\r' :: '\n' :: tail)) with
            | BulksResult.ok parts r =>
              BulksResult.ok (String.mk (List.take len.toNat (List.take (wrap64 (len + 2)).toNat (s.data ++ '\r' :: '\n' :: tail))) :: parts) r
            | BulksResult.fail e => BulksResult.fail e
            | BulksResult.panicked l => BulksResult.panicked l) = _
  rw [goAtoi_natDigits s.length (by omega)]
  have hw : wrap64 ((s.length : Int) + 2) = (s.length : Int) + 2 :=
    wrap64_eq_self _ (by omega) (by omega)
  have htN : ((s.length : Int) + 2).toNat = s.length + 2 := by omega
  have hN2 : ((s.length : Int)).toNat = s.length := by omega
  have hsd : s.data.length = s.length := rfl
  have hsplit : s.data ++ '\r' :: '\n' :: tail = (s.data ++ ['\r', '\n']) ++ tail := by simp
  have hplen : (s.data ++ ['\r', '\n']).length = s.length + 2 := by
    rw [List.length_append, hsd]
    rfl
  show (if wrap64 ((s.length : Int) + 2) < 0 then BulksResult.panicked s.length
      else
        if (s.data ++ '\r' :: '\n' :: tail).length < (wrap64 ((s.length : Int) + 2)).toNat then BulksResult.fail DecErr.shortRead
        else
          if ((s.length : Int)) < 0 then BulksResult.panicked s.length
          else
            match decodeBulks count (List.drop (wrap64 ((s.length : Int) + 2)).toNat (s.data ++ '\r' :: '\n' :: tail)) with
            | BulksResult.ok parts r =>
              BulksResult.ok (String.mk (List.take ((s.length : Int)).toNat (List.take (wrap64 ((s.length : Int) + 2)).toNat (s.data ++ '\r' :: '\n' :: tail))) :: parts) r
            | BulksResult.fail e => BulksResult.fail e
            | BulksResult.panicked l => BulksResult.panicked l) = _
  rw [hw]
  rw [if_neg (by omega : ¬((s.length : Int) + 2 < 0))]
  rw [htN, hN2, hsplit]
  rw [if_neg (show ¬(((s.data ++ ['\r', '\n']) ++ tail).length < s.length + 2) from by
    rw [List.length_append, hplen]; omega)]
  rw [if_neg (by omega : ¬((s.length : Int) < 0))]
  rw [List.drop_left' hplen, List.take_left' hplen, List.take_left' hsd]

theorem bulksConcat_data_cons (s : String) (t : List String) (rest : List Char) :
    (bulksConcat (s :: t)).data ++ rest =
      (EncodeBulkString s).data ++ ((bulksConcat t).data ++ rest) := by
  show (EncodeBulkString s ++ bulksConcat t).data ++ rest = _
  rw [data_append, List.append_assoc]

theorem decodeBulks_encodeList (ss : List String) (rest : List Char)
    (hlens : ∀ s ∈ ss, s.length ≤ 9223372036854775805) :
    decodeBulks ss.length ((bulksConcat ss).data ++ rest) = .ok ss rest := by
  induction ss generalizing rest with
  | nil => rfl
  | cons s t ih =>
    rw [List.length_cons, bulksConcat_data_cons,
        decodeBulks_cons _ _ _ (hlens s (List.mem_cons_self s t)),
        ih rest (fun x hx => hlens x (List.mem_cons_of_mem s hx))]

def hasCRLF : List Char → Bool
  | '\r' :: '\n' :: _ => true
  | _ :: t => hasCRLF t
  | [] => false

theorem hasCRLF_replicate_a (n : Nat) : hasCRLF (List.replicate n 'a') = false := by
  induction n with
  | zero => rfl
  | succ m ih =>
    cases m with
    | zero => rfl
    | succ k => exact ih

/-- A string of 9223372036854775806 bytes: the smallest length whose
`length+2` buffer size overflows int64, so its decode panics in `make`. -/
def bigStr : String :=
  String.mk (List.replicate 9223372036854775806 'a')

theorem decodeBulks_cons_panic (count : Nat) (s : String) (tail : List Char)
    (hlo : 9223372036854775805 < s.length) (hhi : s.length ≤ 9223372036854775807) :
    decodeBulks (count + 1) ((EncodeBulkString s).data ++ tail) =
      .panicked (s.length : Int) := by
  have h1 : ("$" : String).data = ['$'] := rfl
  have h2 : ("\r\n" : String).data = ['\r', '\n'] := rfl
  have hform : (EncodeBulkString s).data ++ tail =
      ('$' :: natDigits s.length) ++ '\r' :: '\n' :: (s.data ++ '\r' :: '\n' :: tail) := by
    simp only [EncodeBulkString, natStr, data_append, data_mk, h1, h2]
    simp [List.append_assoc]
  have hnl : '\n' ∉ '$' :: natDigits s.length := by
    intro h
    rcases List.mem_cons.mp h with h1 | h1
    · exact absurd h1 (by decide)
    · exact natDigits_no_nl _ h1
  rw [hform]
  show decodeBulks (count + 1) _ = _
  simp only [decodeBulks]
  rw [readLine_encoded _ _ hnl]
  show (match goAtoi (natDigits s.length) with
    | none => BulksResult.fail (DecErr.badBulkLen ('$' :: natDigits s.length))
    | some len =>
      if wrap64 (len + 2) < 0 then BulksResult.panicked len
      else
        if (s.data ++ '\r' :: '\n' :: tail).length < (wrap64 (len + 2)).toNat then BulksResult.fail DecErr.shortRead
        else
          if len < 0 then BulksResult.panicked len
          else
            match decodeBulks count (List.drop (wrap64 (len + 2)).toNat (s.data ++ '\r' :: '\n' :: tail)) with
            | BulksResult.ok parts r =>
              BulksResult.ok (String.mk (List.take len.toNat (List.take (wrap64 (len + 2)).toNat (s.data ++ '\r' :: '\n' :: tail))) :: parts) r
            | BulksResult.fail e => BulksResult.fail e
            | BulksResult.panicked l => BulksResult.panicked l) = _
  rw [goAtoi_natDigits s.length hhi]
  show (if wrap64 ((s.length : Int) + 2) < 0 then BulksResult.panicked (s.length : Int)
      else
        if (s.data ++ '\r' :: '\n' :: tail).length < (wrap64 ((s.length : Int) + 2)).toNat then BulksResult.fail DecErr.shortRead
        else
          if ((s.length : Int)) < 0 then BulksResult.panicked (s.length : Int)
          else
            match decodeBulks count (List.drop (wrap64 ((s.length : Int) + 2)).toNat (s.data ++ '\r' :: '\n' :: tail)) with
            | BulksResult.ok parts r =>
              BulksResult.ok (String.mk (List.take ((s.length : Int)).toNat (List.take (wrap64 ((s.length : Int) + 2)).toNat (s.data ++ '\r' :: '\n' :: tail))) :: parts) r
            | BulksResult.fail e => BulksResult.fail e
            | BulksResult.panicked l => BulksResult.panicked l) = _
  rw [if_pos (show wrap64 ((s.length : Int) + 2) < 0 from by unfold wrap64; omega)]

theorem decodeBulks_panicked (count : Nat) :
    ∀ (s : List Char) (len : Int), decodeBulks count s = .panicked len →
      len < 0 ∨ 9223372036854775805 < len := by
  induction count with
  | zero =>
    intro s len h
    simp [decodeBulks] at h
  | succ n ih =>
    intro s len h
    simp only [decodeBulks] at h
    split at h
    · simp at h
    · split at h
      · split at h
        · simp at h
        · split at h
          · rename_i hcond
            simp at h
            unfold wrap64 at hcond
            omega
          · split at h
            · simp at h
            · split at h
              · simp at h
                omega
              · split at h
                · simp at h
                · simp at h
                · rename_i heq
                  simp at h
                  exact h ▸ ih _ _ heq
      · simp at h

theorem DecodeCommand_panicked (input : List Char) (len : Int)
    (h : DecodeCommand input = .panicked len) :
    len < 0 ∨ 9223372036854775805 < len := by
  simp only [DecodeCommand] at h
  split at h
  · simp at h
  · split at h
    · split at h
      · simp at h
      · split at h
        · simp at h
        · split at h
          · split at h
            · simp at h
            · simp at h
          · simp at h
          · rename_i heq
            simp at h
            exact h ▸ decodeBulks_panicked _ _ _ heq
    · simp at h

/-! ### The key-value store (`store.Store`) and the command dispatcher
(`protocol.ParseCommand`, RESP version) -/

/-- Association-list lookup for the store's `map[string]string`. -/
def lookupStr : List (String × String) → String → Option String
  | [], _ => none
  | (k, v) :: t, key => if k = key then some v else lookupStr t key

/-- `store.Store`: the mutex-guarded string map (the lock has no sequential
counterpart). -/
structure Store where
  data : List (String × String)
deriving DecidableEq

/-- `Store.Get`. -/
def Store.Get (st : Store) (key : String) : Option String :=
  lookupStr st.data key

/-- `Store.Set` (map assignment). -/
def Store.Set (st : Store) (key value : String) : Store :=
  { data := (key, value) :: st.data.filter fun p => p.1 != key }

/-- `Store.Delete`, returning whether the key existed. -/
def Store.Delete (st : Store) (key : String) : Bool × Store :=
  ((st.Get key).isSome, { data := st.data.filter fun p => p.1 != key })

/-- `Store.Match`: filter the keys through the glob matcher.  The matcher
(`path/filepath.Match`, standard library, its error ignored as in the
source) is a parameter; Go iterates the map in unspecified order, here the
association order. -/
def Store.Match (matchFn : String → String → Bool) (st : Store)
    (pattern : String) : List String × Bool :=
  let found := (st.data.map Prod.fst).filter fun key => matchFn pattern key
  (found, !found.isEmpty)

/-- `Store.FlushAll`. -/
def Store.FlushAll (_ : Store) : Store :=
  { data := [] }

/-- The fresh store of `store.NewStore`. -/
def initStore : Store :=
  { data := [] }

/-- `strings.ToUpper`, restricted to its ASCII action (the command verbs the
switch compares against are ASCII; for inputs where Go's Unicode case
mapping would matter, both sides fall into the unknown-command branch,
which echoes the unmapped original). -/
def toUpperStr (s : String) : String :=
  String.mk (s.data.map Char.toUpper)

/-- The Go string constant `protocol.GenericErrorPrefix`. -/
def GenericErrorPrefix : String := "ERR"

/-- The Go string constant `protocol.ReturnOK`. -/
def ReturnOK : String := "OK"

/-- The static metadata literal of the `COMMAND` branch. -/
def commandsTable : List RespVal :=
  [.arr [.str "SET", .int 3, .arr [.str "write"], .int 1, .int 1, .int 1],
   .arr [.str "GET", .int 2, .arr [.str "readonly"], .int 1, .int 1, .int 1],
   .arr [.str "DEL", .int 2, .arr [.str "write"], .int 1, .int 1, .int 1],
   .arr [.str "KEYS", .int 2, .arr [.str "readonly"], .int 1, .int 1, .int 1],
   .arr [.str "EXPIRE", .int 3, .arr [.str "write"], .int 1, .int 1, .int 1],
   .arr [.str "TTL", .int 2, .arr [.str "readonly"], .int 1, .int 1, .int 1],
   .arr [.str "FLUSHALL", .int 1, .arr [.str "write"], .int 0, .int 0, .int 0],
   .arr [.str "PING", .int 1, .arr [.str "stale", .str "fast"], .int 0, .int 0, .int 0],
   .arr [.str "COMMAND", .int 1, .arr [.str "readonly"], .int 0, .int 0, .int 0]]

/-! ### The float64 arithmetic of `Duration.Seconds()`

Go's TTL reply truncates `expiresAt.Sub(now).Seconds()`, a float64.  The
integer second and nanosecond parts are below `2^53`, so their conversions
are exact; the division by `1e9` and the final sum each round once to 53
significant bits (round to nearest, ties to even), modelled by `rnd53` over
`ℚ` with unbounded exponent range -- exact for these magnitudes, which stay
far from overflow and the subnormals. -/

/-- The floor of a rational, computed from its reduced fraction (this
spelling, unlike `Int.floor`, evaluates inside the kernel). -/
def ratFloor (x : ℚ) : Int :=
  x.num / (x.den : Int)

theorem ratFloor_eq (x : ℚ) : ratFloor x = ⌊x⌋ :=
  Rat.floor_def.symm

/-- Round a rational to the nearest integer, ties to even: the rounding of
IEEE-754 applied to the scaled mantissa. -/
def rne (m : ℚ) : Int :=
  if m - (ratFloor m : ℚ) < 1/2 then ratFloor m
  else if 1/2 < m - (ratFloor m : ℚ) then ratFloor m + 1
  else if ratFloor m % 2 = 0 then ratFloor m else ratFloor m + 1

/-- Normalize a positive rational to mantissa-exponent form with the
mantissa in `[2^52, 2^53)`, by a fueled doubling/halving loop. -/
def normF : Nat → ℚ → Int → ℚ × Int
  | 0, a, e => (a, e)
  | fuel + 1, a, e =>
    if a < 2 ^ 52 then normF fuel (a * 2) (e - 1)
    else if 2 ^ 53 ≤ a then normF fuel (a / 2) (e + 1)
    else (a, e)

/-- Round a rational to the nearest float64 (round to nearest, ties to
even), with unbounded exponent range: exact for the magnitudes reachable
here, which stay far from both overflow and the subnormals. -/
def rnd53 (q : ℚ) : ℚ :=
  if q = 0 then 0
  else if q < 0 then
    -((rne (normF 400 (-q) 0).1 : ℚ) * 2 ^ (normF 400 (-q) 0).2)
  else
    (rne (normF 400 q 0).1 : ℚ) * 2 ^ (normF 400 q 0).2

theorem rne_ge_floor (m : ℚ) : ⌊m⌋ ≤ rne m := by
  unfold rne
  simp only [ratFloor_eq]
  split_ifs <;> omega

theorem rne_le_floor_add_one (m : ℚ) : rne m ≤ ⌊m⌋ + 1 := by
  unfold rne
  simp only [ratFloor_eq]
  split_ifs <;> omega

theorem rne_le (m : ℚ) : (rne m : ℚ) ≤ m + 1/2 := by
  have h0 : (⌊m⌋ : ℚ) ≤ m := Int.floor_le m
  have h1 : m - 1 < (⌊m⌋ : ℚ) := by
    have := Int.lt_floor_add_one m
    linarith
  unfold rne
  simp only [ratFloor_eq]
  split_ifs with hf1 hf2 he
  · linarith
  · push_cast
    linarith
  · push_cast
    linarith
  · push_cast
    linarith

theorem rne_ge (m : ℚ) : m - 1/2 ≤ (rne m : ℚ) := by
  have h0 : (⌊m⌋ : ℚ) ≤ m := Int.floor_le m
  have h1 : m - 1 < (⌊m⌋ : ℚ) := by
    have := Int.lt_floor_add_one m
    linarith
  unfold rne
  simp only [ratFloor_eq]
  split_ifs with hf1 hf2 he
  · linarith
  · push_cast
    linarith
  · push_cast
    linarith
  · push_cast
    linarith

theorem normF_spec_up (fuel : Nat) :
    ∀ (a : ℚ) (e : Int), 0 < a → a < 2 ^ 53 → (2 ^ 52 : ℚ) ≤ a * 2 ^ fuel →
      (normF fuel a e).1 * (2 : ℚ) ^ (normF fuel a e).2 = a * (2 : ℚ) ^ e ∧
      (2 ^ 52 : ℚ) ≤ (normF fuel a e).1 ∧ (normF fuel a e).1 < 2 ^ 53 := by
  induction fuel with
  | zero =>
    intro a e h0 h53 h52
    rw [pow_zero, mul_one] at h52
    exact ⟨rfl, h52, h53⟩
  | succ f ih =>
    intro a e h0 h53 h52
    rw [show normF (f + 1) a e = (if a < 2 ^ 52 then normF f (a * 2) (e - 1)
      else if 2 ^ 53 ≤ a then normF f (a / 2) (e + 1) else (a, e)) from rfl]
    by_cases hlt : a < 2 ^ 52
    · rw [if_pos hlt]
      have h1 : (0 : ℚ) < a * 2 := by linarith
      have h2 : a * 2 < 2 ^ 53 := by
        have : (2 : ℚ) ^ 53 = 2 ^ 52 * 2 := by norm_num
        linarith
      have h3 : (2 ^ 52 : ℚ) ≤ (a * 2) * 2 ^ f := by
        have : (a * 2) * (2 : ℚ) ^ f = a * 2 ^ (f + 1) := by ring
        rw [this]
        exact h52
      obtain ⟨heq, hb1, hb2⟩ := ih (a * 2) (e - 1) h1 h2 h3
      refine ⟨?_, hb1, hb2⟩
      rw [heq]
      have h2e : (2 : ℚ) ^ (e - 1) = 2 ^ e / 2 := by
        rw [zpow_sub₀ (by norm_num : (2:ℚ) ≠ 0), zpow_one]
      rw [h2e]
      ring
    · rw [if_neg hlt, if_neg (by linarith : ¬((2 ^ 53 : ℚ) ≤ a))]
      exact ⟨rfl, le_of_not_lt hlt, h53⟩

theorem normF_spec_down (fuel : Nat) :
    ∀ (a : ℚ) (e : Int), (2 ^ 52 : ℚ) ≤ a → a < 2 ^ 53 * 2 ^ fuel →
      (normF fuel a e).1 * (2 : ℚ) ^ (normF fuel a e).2 = a * (2 : ℚ) ^ e ∧
      (2 ^ 52 : ℚ) ≤ (normF fuel a e).1 ∧ (normF fuel a e).1 < 2 ^ 53 := by
  induction fuel with
  | zero =>
    intro a e h52 h53
    rw [pow_zero, mul_one] at h53
    exact ⟨rfl, h52, h53⟩
  | succ f ih =>
    intro a e h52 h53
    rw [show normF (f + 1) a e = (if a < 2 ^ 52 then normF f (a * 2) (e - 1)
      else if 2 ^ 53 ≤ a then normF f (a / 2) (e + 1) else (a, e)) from rfl]
    rw [if_neg (not_lt.mpr h52)]
    by_cases hge : (2 ^ 53 : ℚ) ≤ a
    · rw [if_pos hge]
      have h1 : (2 ^ 52 : ℚ) ≤ a / 2 := by
        have : (2 : ℚ) ^ 53 = 2 ^ 52 * 2 := by norm_num
        linarith
      have h2 : a / 2 < 2 ^ 53 * 2 ^ f := by
        have h3 : a < (2 ^ 53 * 2 ^ f) * 2 := by
          have : (2 ^ 53 : ℚ) * 2 ^ (f + 1) = (2 ^ 53 * 2 ^ f) * 2 := by ring
          linarith [h53, this.symm.le]
        linarith
      obtain ⟨heq, hb1, hb2⟩ := ih (a / 2) (e + 1) h1 h2
      refine ⟨?_, hb1, hb2⟩
      rw [heq]
      have h2e : (2 : ℚ) ^ (e + 1) = 2 ^ e * 2 := by
        rw [zpow_add₀ (by norm_num : (2:ℚ) ≠ 0), zpow_one]
      rw [h2e]
      ring
    · rw [if_neg hge]
      exact ⟨rfl, h52, not_le.mp hge⟩

theorem normF_spec (a : ℚ) (hlo : (2 : ℚ) ^ (-150 : Int) ≤ a)
    (hhi : a ≤ (2 : ℚ) ^ (140 : Nat)) :
    (normF 400 a 0).1 * (2 : ℚ) ^ (normF 400 a 0).2 = a ∧
    (2 ^ 52 : ℚ) ≤ (normF 400 a 0).1 ∧ (normF 400 a 0).1 < 2 ^ 53 := by
  have h0 : (0 : ℚ) < a :=
    lt_of_lt_of_le (zpow_pos (by norm_num) _) hlo
  by_cases h53 : a < 2 ^ 53
  · have h52 : (2 ^ 52 : ℚ) ≤ a * 2 ^ 400 := by
      have hm : (2 : ℚ) ^ (-150 : Int) * 2 ^ (400 : Nat) ≤ a * 2 ^ (400 : Nat) := by
        apply mul_le_mul_of_nonneg_right hlo
        positivity
      have he : (2 : ℚ) ^ (-150 : Int) * 2 ^ (400 : Nat) = 2 ^ (250 : Nat) := by
        rw [← zpow_natCast (2 : ℚ) 400, ← zpow_natCast (2 : ℚ) 250,
            ← zpow_add₀ (by norm_num : (2:ℚ) ≠ 0)]
        norm_num
      have hle : (2 : ℚ) ^ (52 : Nat) ≤ 2 ^ (250 : Nat) := by
        apply pow_le_pow_right₀ (by norm_num)
        norm_num
      calc (2 ^ 52 : ℚ) ≤ 2 ^ (250 : Nat) := hle
        _ = (2 : ℚ) ^ (-150 : Int) * 2 ^ (400 : Nat) := he.symm
        _ ≤ a * 2 ^ 400 := hm
    have := normF_spec_up 400 a 0 h0 h53 h52
    rwa [zpow_zero, mul_one] at this
  · have h52 : (2 ^ 52 : ℚ) ≤ a := by
      have : (2 ^ 52 : ℚ) ≤ 2 ^ 53 := by norm_num
      linarith [not_lt.mp h53]
    have hup : a < 2 ^ 53 * 2 ^ 400 := by
      have : (2 : ℚ) ^ (140 : Nat) < 2 ^ 53 * 2 ^ 400 := by
        rw [← pow_add]
        apply pow_lt_pow_right₀ (by norm_num)
        norm_num
      linarith
    have := normF_spec_down 400 a 0 h52 hup
    rwa [zpow_zero, mul_one] at this

theorem rnd53_pos_eq (a : ℚ) (h0 : 0 < a) :
    rnd53 a = (rne (normF 400 a 0).1 : ℚ) * 2 ^ (normF 400 a 0).2 := by
  unfold rnd53
  rw [if_neg (ne_of_gt h0), if_neg (not_lt.mpr (le_of_lt h0))]

theorem rnd53_pos (a : ℚ) (hlo : (2 : ℚ) ^ (-150 : Int) ≤ a)
    (hhi : a ≤ (2 : ℚ) ^ (140 : Nat)) : 0 < rnd53 a := by
  obtain ⟨heq, hm1, hm2⟩ := normF_spec a hlo hhi
  have h0 : 0 < a := lt_of_lt_of_le (zpow_pos (by norm_num) _) hlo
  rw [rnd53_pos_eq a h0]
  have hfl : (2 ^ 52 : Int) ≤ ⌊(normF 400 a 0).1⌋ := by
    apply Int.le_floor.mpr
    push_cast
    exact hm1
  have hrne : (0 : Int) < rne (normF 400 a 0).1 := by
    have := rne_ge_floor (normF 400 a 0).1
    omega
  have hq : (0 : ℚ) < (rne (normF 400 a 0).1 : ℚ) := by exact_mod_cast hrne
  exact mul_pos hq (zpow_pos (by norm_num) _)

theorem rnd53_err (a : ℚ) (k : Int) (hlo : (2 : ℚ) ^ (-150 : Int) ≤ a)
    (hhi : a ≤ (2 : ℚ) ^ (140 : Nat)) (hk : a < (2 : ℚ) ^ (k + 1)) :
    a - (2 : ℚ) ^ (k - 53) ≤ rnd53 a ∧ rnd53 a ≤ a + (2 : ℚ) ^ (k - 53) := by
  obtain ⟨heq, hm1, hm2⟩ := normF_spec a hlo hhi
  have h0 : 0 < a := lt_of_lt_of_le (zpow_pos (by norm_num) _) hlo
  rw [rnd53_pos_eq a h0]
  set m := (normF 400 a 0).1 with hmdef
  set e := (normF 400 a 0).2 with hedef
  have h2ne : (2 : ℚ) ≠ 0 := by norm_num
  have hepos : (0 : ℚ) < (2 : ℚ) ^ e := zpow_pos (by norm_num) _
  have h52i : (2 : ℚ) ^ ((52 : Nat) : Int) = 2 ^ (52 : Nat) := zpow_natCast 2 52
  have hlow : (2 : ℚ) ^ ((52 : Int) + e) ≤ a := by
    rw [zpow_add₀ h2ne]
    calc (2 : ℚ) ^ (52 : Int) * 2 ^ e ≤ m * 2 ^ e := by
          apply mul_le_mul_of_nonneg_right _ (le_of_lt hepos)
          rw [show (52 : Int) = ((52 : Nat) : Int) from rfl, h52i]
          exact hm1
      _ = a := heq
  have hek : e ≤ k - 52 := by
    by_contra hcon
    push_neg at hcon
    have hcmp : (2 : ℚ) ^ (k + 1) ≤ (2 : ℚ) ^ ((52 : Int) + e) :=
      zpow_le_zpow_right₀ (by norm_num) (by omega)
    linarith
  have herr1 : (rne m : ℚ) ≤ m + 1/2 := rne_le _
  have herr2 : m - 1/2 ≤ (rne m : ℚ) := rne_ge _
  have hhalf : (1 / 2 : ℚ) * (2 : ℚ) ^ e = (2 : ℚ) ^ (e - 1) := by
    rw [zpow_sub₀ h2ne, zpow_one]
    ring
  have hmono : (2 : ℚ) ^ (e - 1) ≤ (2 : ℚ) ^ (k - 53) :=
    zpow_le_zpow_right₀ (by norm_num) (by omega)
  constructor
  · have h1 : (m - 1/2) * (2 : ℚ) ^ e ≤ (rne m : ℚ) * (2 : ℚ) ^ e :=
      mul_le_mul_of_nonneg_right herr2 (le_of_lt hepos)
    have h2 : (m - 1/2) * (2 : ℚ) ^ e = a - (1 / 2 : ℚ) * (2 : ℚ) ^ e := by
      have hr : (m - 1/2) * (2 : ℚ) ^ e = m * 2 ^ e - (1/2) * 2 ^ e := by ring
      rw [hr, heq]
    rw [h2, hhalf] at h1
    linarith
  · have h1 : (rne m : ℚ) * (2 : ℚ) ^ e ≤ (m + 1/2) * (2 : ℚ) ^ e :=
      mul_le_mul_of_nonneg_right herr1 (le_of_lt hepos)
    have h2 : (m + 1/2) * (2 : ℚ) ^ e = a + (1 / 2 : ℚ) * (2 : ℚ) ^ e := by
      have hr : (m + 1/2) * (2 : ℚ) ^ e = m * 2 ^ e + (1/2) * 2 ^ e := by ring
      rw [hr, heq]
    rw [h2, hhalf] at h1
    linarith

theorem rnd53_ge_int (a : ℚ) (hlo : (2 : ℚ) ^ (-150 : Int) ≤ a)
    (hhi : a ≤ (2 : ℚ) ^ (140 : Nat)) (ha52 : a < 2 ^ (52 : Nat))
    (g : Int) (hg0 : 0 ≤ g) (hga : (g : ℚ) ≤ a) : (g : ℚ) ≤ rnd53 a := by
  obtain ⟨heq, hm1, hm2⟩ := normF_spec a hlo hhi
  have h0 : 0 < a := lt_of_lt_of_le (zpow_pos (by norm_num) _) hlo
  rw [rnd53_pos_eq a h0]
  set m := (normF 400 a 0).1 with hmdef
  set e := (normF 400 a 0).2 with hedef
  have h2ne : (2 : ℚ) ≠ 0 := by norm_num
  have hepos : (0 : ℚ) < (2 : ℚ) ^ e := zpow_pos (by norm_num) _
  have h52i : (2 : ℚ) ^ ((52 : Nat) : Int) = 2 ^ (52 : Nat) := zpow_natCast 2 52
  have hlow : (2 : ℚ) ^ ((52 : Int) + e) ≤ a := by
    rw [zpow_add₀ h2ne]
    calc (2 : ℚ) ^ (52 : Int) * 2 ^ e ≤ m * 2 ^ e := by
          apply mul_le_mul_of_nonneg_right _ (le_of_lt hepos)
          rw [show (52 : Int) = ((52 : Nat) : Int) from rfl, h52i]
          exact hm1
      _ = a := heq
  have hek : e ≤ -1 := by
    by_contra hcon
    push_neg at hcon
    have hcmp : (2 : ℚ) ^ ((52 : Nat) : Int) ≤ (2 : ℚ) ^ ((52 : Int) + e) :=
      zpow_le_zpow_right₀ (by norm_num) (by omega)
    rw [h52i] at hcmp
    linarith
  have hnetoNat : (((-e).toNat : Nat) : Int) = -e := Int.toNat_of_nonneg (by omega)
  have hGcast : ((g * 2 ^ ((-e).toNat) : Int) : ℚ) = (g : ℚ) * (2 : ℚ) ^ (-e) := by
    push_cast
    rw [← zpow_natCast (2 : ℚ) ((-e).toNat), hnetoNat]
  have hcancel : (2 : ℚ) ^ (-e) * (2 : ℚ) ^ e = 1 := by
    rw [← zpow_add₀ h2ne]
    simp
  have hGm : ((g * 2 ^ ((-e).toNat) : Int) : ℚ) ≤ m := by
    rw [hGcast]
    have h1 : (g : ℚ) * (2 : ℚ) ^ (-e) ≤ a * (2 : ℚ) ^ (-e) :=
      mul_le_mul_of_nonneg_right hga (le_of_lt (zpow_pos (by norm_num) _))
    have hcancel2 : (2 : ℚ) ^ e * (2 : ℚ) ^ (-e) = 1 := by
      rw [← zpow_add₀ h2ne]
      simp
    have h2 : a * (2 : ℚ) ^ (-e) = m := by
      rw [← heq, mul_assoc, hcancel2, mul_one]
    linarith
  have hGfl : (g * 2 ^ ((-e).toNat) : Int) ≤ ⌊m⌋ := Int.le_floor.mpr hGm
  have hGrne : (g * 2 ^ ((-e).toNat) : Int) ≤ rne m := by
    have := rne_ge_floor m
    omega
  have hq : ((g * 2 ^ ((-e).toNat) : Int) : ℚ) ≤ (rne m : ℚ) := by exact_mod_cast hGrne
  have hfin : ((g * 2 ^ ((-e).toNat) : Int) : ℚ) * (2 : ℚ) ^ e = (g : ℚ) := by
    rw [hGcast, mul_assoc, hcancel]
    ring
  calc (g : ℚ) = ((g * 2 ^ ((-e).toNat) : Int) : ℚ) * (2 : ℚ) ^ e := hfin.symm
    _ ≤ (rne m : ℚ) * (2 : ℚ) ^ e := mul_le_mul_of_nonneg_right hq (le_of_lt hepos)

theorem rnd53_zero : rnd53 0 = 0 := by
  unfold rnd53
  simp

theorem rnd53_neg_arg (q : ℚ) : rnd53 (-q) = -rnd53 q := by
  rcases lt_trichotomy q 0 with hlt | heq0 | hgt
  · have hne : q ≠ 0 := ne_of_lt hlt
    have hA : ¬(-q = 0) := fun h => hne (neg_eq_zero.mp h)
    have hB : ¬(-q < 0) := not_lt.mpr (by linarith)
    unfold rnd53
    rw [if_neg hA, if_neg hB, if_neg hne, if_pos hlt, neg_neg]
  · subst heq0
    rw [neg_zero, rnd53_zero]
    norm_num
  · have hne : q ≠ 0 := ne_of_gt hgt
    have hA : ¬(-q = 0) := fun h => hne (neg_eq_zero.mp h)
    have hB : -q < 0 := by linarith
    unfold rnd53
    rw [if_neg hA, if_pos hB, if_neg hne, if_neg (not_lt.mpr (le_of_lt hgt)), neg_neg]

/-- Truncation of a rational toward zero: Go's float64-to-int64 conversion. -/
def ratTrunc (x : ℚ) : Int :=
  if x < 0 then -(ratFloor (-x)) else ratFloor x

/-- `time.Duration.Seconds()` on a duration of `d` nanoseconds:
`float64(d / 1e9) + float64(d % 1e9) / 1e9` with Go's truncating integer
division, each float64 operation rounding to nearest (ties to even).  The
integer parts are below `2^53` so their conversions are exact; the division
and the sum each round once. -/
def goSeconds (d : Int) : ℚ :=
  rnd53 (((d.tdiv 1000000000 : Int) : ℚ) +
    rnd53 (((d.tmod 1000000000 : Int) : ℚ) / 1000000000))

theorem rnd53_frac (nsec : Int) (h1 : 1 ≤ nsec) (h2 : nsec ≤ 999999999) :
    (2 : ℚ) ^ (-31 : Int) ≤ rnd53 ((nsec : ℚ) / 1000000000) ∧
    rnd53 ((nsec : ℚ) / 1000000000) ≤ 1 - 1/1000000000 + (2 : ℚ) ^ (-54 : Int) := by
  have h1q : (1 : ℚ) ≤ (nsec : ℚ) := by exact_mod_cast h1
  have h2q : (nsec : ℚ) ≤ 999999999 := by exact_mod_cast h2
  have ha1 : (1 : ℚ) / 1000000000 ≤ (nsec : ℚ) / 1000000000 := by gcongr
  have hub : (nsec : ℚ) / 1000000000 ≤ 1 - 1/1000000000 := by
    rw [div_le_iff (by norm_num : (0:ℚ) < 1000000000)]
    linarith
  have hlo : (2 : ℚ) ^ (-150 : Int) ≤ (nsec : ℚ) / 1000000000 := by
    have hnum : (2 : ℚ) ^ (-150 : Int) ≤ 1 / 1000000000 := by norm_num
    linarith
  have hhi : (nsec : ℚ) / 1000000000 ≤ (2 : ℚ) ^ (140 : Nat) := by
    have : (1 : ℚ) ≤ (2 : ℚ) ^ (140 : Nat) := by norm_num
    linarith
  have hk : (nsec : ℚ) / 1000000000 < (2 : ℚ) ^ ((-1 : Int) + 1) := by
    rw [show ((-1 : Int) + 1) = 0 from by norm_num, zpow_zero]
    linarith
  obtain ⟨hL, hR⟩ := rnd53_err ((nsec : ℚ) / 1000000000) (-1) hlo hhi hk
  have hexp : ((-1 : Int) - 53) = (-54 : Int) := by norm_num
  rw [hexp] at hL hR
  constructor
  · have hnum : (2 : ℚ) ^ (-31 : Int) ≤ 1 / 1000000000 - (2 : ℚ) ^ (-54 : Int) := by
      norm_num
    linarith
  · linarith

theorem rnd53_sum_floor (sec : Int) (r : ℚ) (h1 : 0 ≤ sec) (h2 : sec ≤ 16777215)
    (h3 : r = 0 ∨ (2 : ℚ) ^ (-31 : Int) ≤ r) (h5 : 0 ≤ r)
    (h4 : r ≤ 1 - 1/1000000000 + (2 : ℚ) ^ (-54 : Int)) :
    ratTrunc (rnd53 ((sec : ℚ) + r)) = sec ∧ 0 ≤ rnd53 ((sec : ℚ) + r) := by
  have e54 : (2 : ℚ) ^ (-54 : Int) = 1/18014398509481984 := by norm_num
  have e30 : (2 : ℚ) ^ (-30 : Int) = 1/1073741824 := by norm_num
  rw [e54] at h4
  have h1q : (0 : ℚ) ≤ (sec : ℚ) := by exact_mod_cast h1
  have h2q : (sec : ℚ) ≤ 16777215 := by exact_mod_cast h2
  by_cases hz : (sec : ℚ) + r = 0
  · have hr0 : r = 0 := le_antisymm (by linarith) h5
    have hsec0 : sec = 0 := by
      have hq : (sec : ℚ) = 0 := by linarith
      exact_mod_cast hq
    rw [hz, rnd53_zero]
    subst hsec0
    refine ⟨?_, le_refl 0⟩
    unfold ratTrunc
    simp only [ratFloor_eq]
    rw [if_neg (by norm_num)]
    simp
  · have hrlt1 : r < 1 := by linarith
    have hlo : (2 : ℚ) ^ (-150 : Int) ≤ (sec : ℚ) + r := by
      rcases h3 with hr0 | hrlo
      · subst hr0
        have hsec1 : 1 ≤ sec := by
          by_contra hcon
          push_neg at hcon
          have hs0 : sec = 0 := by omega
          subst hs0
          simp at hz
        have hq : (1 : ℚ) ≤ (sec : ℚ) := by exact_mod_cast hsec1
        have hnum : (2 : ℚ) ^ (-150 : Int) ≤ 1 := by norm_num
        linarith
      · have hnum : (2 : ℚ) ^ (-150 : Int) ≤ (2 : ℚ) ^ (-31 : Int) :=
          zpow_le_zpow_right₀ (by norm_num) (by norm_num)
        linarith
    have hhi : (sec : ℚ) + r ≤ (2 : ℚ) ^ (140 : Nat) := by
      have hnum : (16777216 : ℚ) ≤ (2 : ℚ) ^ (140 : Nat) := by norm_num
      linarith
    have hk : (sec : ℚ) + r < (2 : ℚ) ^ ((23 : Int) + 1) := by
      have hnum : (2 : ℚ) ^ ((23 : Int) + 1) = 16777216 := by norm_num
      linarith
    obtain ⟨hL, hR⟩ := rnd53_err ((sec : ℚ) + r) 23 hlo hhi hk
    have hexp : ((23 : Int) - 53) = (-30 : Int) := by norm_num
    rw [hexp, e30] at hL hR
    have hge : (sec : ℚ) ≤ rnd53 ((sec : ℚ) + r) := by
      apply rnd53_ge_int _ hlo hhi _ sec h1 (by linarith)
      have hnum : (16777216 : ℚ) ≤ 2 ^ (52 : Nat) := by norm_num
      linarith
    have hlt : rnd53 ((sec : ℚ) + r) < (sec : ℚ) + 1 := by linarith
    refine ⟨?_, by linarith⟩
    unfold ratTrunc
    simp only [ratFloor_eq]
    rw [if_neg (not_lt.mpr (by linarith : (0 : ℚ) ≤ rnd53 ((sec : ℚ) + r)))]
    rw [Int.floor_eq_iff]
    refine ⟨hge, ?_⟩
    push_cast
    linarith

/-- For a non-negative dividend, Go's truncating conversion agrees with the
floor of the quotient (Lean's `/` on `Int` is floor division for a positive
divisor). -/
theorem tdiv_nonneg_eq_fdiv (x : Int) (h : 0 ≤ x) :
    Int.tdiv x 1000000000 = x / 1000000000 := by
  lift x to Nat using h
  rfl

theorem goSeconds_zero : goSeconds 0 = 0 := by
  show rnd53 ((((0 : Int).tdiv 1000000000 : Int) : ℚ) +
    rnd53 ((((0 : Int).tmod 1000000000 : Int) : ℚ) / 1000000000)) = 0
  rw [Int.zero_tdiv, Int.zero_tmod]
  push_cast
  rw [zero_div, rnd53_zero, add_zero, rnd53_zero]

theorem tmod_neg_dividend (a b : Int) : (-a).tmod b = -(a.tmod b) := by
  have h1 := Int.tdiv_add_tmod a b
  have h2 := Int.tdiv_add_tmod (-a) b
  rw [Int.neg_tdiv] at h2
  have h3 : b * -(a.tdiv b) = -(b * (a.tdiv b)) := by ring
  linarith

theorem goSeconds_floor (d : Int) (hpos : 0 < d) (hbound : d < 16777216000000000) :
    ratTrunc (goSeconds d) = d / 1000000000 ∧ 0 ≤ goSeconds d := by
  have heqd : 1000000000 * (d.tdiv 1000000000) + d.tmod 1000000000 = d :=
    Int.tdiv_add_tmod d 1000000000
  have hn0 : 0 ≤ d.tmod 1000000000 := Int.tmod_nonneg _ (le_of_lt hpos)
  have hnlt : d.tmod 1000000000 < 1000000000 :=
    Int.tmod_lt_of_pos d (by norm_num)
  have hs0 : 0 ≤ d.tdiv 1000000000 := by omega
  have hs1 : d.tdiv 1000000000 ≤ 16777215 := by omega
  have hfd : d.tdiv 1000000000 = d / 1000000000 :=
    tdiv_nonneg_eq_fdiv d (le_of_lt hpos)
  by_cases hnz : d.tmod 1000000000 = 0
  · have hr : rnd53 (((d.tmod 1000000000 : Int) : ℚ) / 1000000000) = 0 := by
      rw [hnz]
      push_cast
      rw [zero_div, rnd53_zero]
    unfold goSeconds
    rw [hr, add_zero]
    have hmain := rnd53_sum_floor (d.tdiv 1000000000) 0 hs0 hs1 (Or.inl rfl)
      (le_refl 0) (by norm_num)
    rw [add_zero] at hmain
    exact ⟨hmain.1.trans hfd, hmain.2⟩
  · have h1n : 1 ≤ d.tmod 1000000000 := by omega
    obtain ⟨hrlo, hrhi⟩ := rnd53_frac (d.tmod 1000000000) h1n (by omega)
    have hr0 : (0 : ℚ) ≤ rnd53 (((d.tmod 1000000000 : Int) : ℚ) / 1000000000) := by
      have : (0 : ℚ) < (2 : ℚ) ^ (-31 : Int) := zpow_pos (by norm_num) _
      linarith
    unfold goSeconds
    have hmain := rnd53_sum_floor (d.tdiv 1000000000)
      (rnd53 (((d.tmod 1000000000 : Int) : ℚ) / 1000000000)) hs0 hs1
      (Or.inr hrlo) hr0 hrhi
    exact ⟨hmain.1.trans hfd, hmain.2⟩

theorem goSeconds_negative (d : Int) (hneg : d < 0)
    (hrange : -9223372036854775808 ≤ d) : goSeconds d < 0 := by
  have heqd : 1000000000 * (d.tdiv 1000000000) + d.tmod 1000000000 = d :=
    Int.tdiv_add_tmod d 1000000000
  have hmodneg : d.tmod 1000000000 = -((-d).tmod 1000000000) := by
    have h := tmod_neg_dividend (-d) 1000000000
    rw [neg_neg] at h
    omega
  have hn0' : 0 ≤ (-d).tmod 1000000000 := Int.tmod_nonneg _ (by omega)
  have hnlt' : (-d).tmod 1000000000 < 1000000000 :=
    Int.tmod_lt_of_pos _ (by norm_num)
  have hs0 : d.tdiv 1000000000 ≤ 0 := by omega
  have hslo : -9223372037 ≤ d.tdiv 1000000000 := by omega
  by_cases hnz : d.tmod 1000000000 = 0
  · have hsneg : d.tdiv 1000000000 ≤ -1 := by omega
    have hr : rnd53 (((d.tmod 1000000000 : Int) : ℚ) / 1000000000) = 0 := by
      rw [hnz]
      push_cast
      rw [zero_div, rnd53_zero]
    unfold goSeconds
    rw [hr, add_zero]
    have hcast : ((d.tdiv 1000000000 : Int) : ℚ) = -(((-(d.tdiv 1000000000) : Int)) : ℚ) := by
      push_cast
      ring
    rw [hcast, rnd53_neg_arg]
    have hpos : 0 < rnd53 (((-(d.tdiv 1000000000) : Int)) : ℚ) := by
      apply rnd53_pos
      · have hq : (1 : ℚ) ≤ ((-(d.tdiv 1000000000) : Int) : ℚ) := by
          exact_mod_cast (by omega : (1 : Int) ≤ -(d.tdiv 1000000000))
        have hnum : (2 : ℚ) ^ (-150 : Int) ≤ 1 := by norm_num
        linarith
      · have hq : ((-(d.tdiv 1000000000) : Int) : ℚ) ≤ 9223372037 := by
          exact_mod_cast (by omega : -(d.tdiv 1000000000) ≤ (9223372037 : Int))
        have hnum : (9223372037 : ℚ) ≤ (2 : ℚ) ^ (140 : Nat) := by norm_num
        linarith
    linarith
  · have h1n : 1 ≤ (-d).tmod 1000000000 := by omega
    obtain ⟨hrlo, hrhi⟩ := rnd53_frac ((-d).tmod 1000000000) h1n (by omega)
    have hcastr : ((d.tmod 1000000000 : Int) : ℚ) / 1000000000 =
        -(((((-d).tmod 1000000000) : Int) : ℚ) / 1000000000) := by
      rw [hmodneg]
      push_cast
      ring
    unfold goSeconds
    rw [hcastr, rnd53_neg_arg]
    have hv : ((d.tdiv 1000000000 : Int) : ℚ) +
        -(rnd53 (((((-d).tmod 1000000000) : Int) : ℚ) / 1000000000)) =
        -((((-(d.tdiv 1000000000) : Int)) : ℚ) +
          rnd53 (((((-d).tmod 1000000000) : Int) : ℚ) / 1000000000)) := by
      push_cast
      ring
    rw [hv, rnd53_neg_arg]
    have harglo : (2 : ℚ) ^ (-150 : Int) ≤
        (((-(d.tdiv 1000000000) : Int)) : ℚ) +
          rnd53 (((((-d).tmod 1000000000) : Int) : ℚ) / 1000000000) := by
      have hsecq : (0 : ℚ) ≤ ((-(d.tdiv 1000000000) : Int) : ℚ) := by
        exact_mod_cast (by omega : (0 : Int) ≤ -(d.tdiv 1000000000))
      have hnum : (2 : ℚ) ^ (-150 : Int) ≤ (2 : ℚ) ^ (-31 : Int) :=
        zpow_le_zpow_right₀ (by norm_num) (by norm_num)
      linarith
    have harghi : (((-(d.tdiv 1000000000) : Int)) : ℚ) +
        rnd53 (((((-d).tmod 1000000000) : Int) : ℚ) / 1000000000) ≤
        (2 : ℚ) ^ (140 : Nat) := by
      have hsecq : ((-(d.tdiv 1000000000) : Int) : ℚ) ≤ 9223372037 := by
        exact_mod_cast (by omega : -(d.tdiv 1000000000) ≤ (9223372037 : Int))
      have hple : rnd53 (((((-d).tmod 1000000000) : Int) : ℚ) / 1000000000) ≤ 1 := by
        have hnum : (1 : ℚ) - 1/1000000000 + (2 : ℚ) ^ (-54 : Int) ≤ 1 := by norm_num
        linarith
      have hnum : (9223372038 : ℚ) ≤ (2 : ℚ) ^ (140 : Nat) := by norm_num
      linarith
    have := rnd53_pos _ harglo harghi
    linarith

theorem ratTrunc_zero : ratTrunc 0 = 0 := by
  unfold ratTrunc
  simp only [ratFloor_eq]
  rw [if_neg (lt_irrefl 0)]
  simp


/-- `time.Duration(seconds) * time.Second`: the int64 product of the
seconds count and 10^9 nanoseconds, wrapping on overflow as Go's signed
multiplication does. -/
def goDur (seconds : Int) : Int :=
  wrap64 (seconds * 1000000000)

/-- The command switch of `protocol.ParseCommand` (everything after
`DecodeCommand` returned `cmd`/`cmdArgs`), acting on the store and the TTL
scheduler and producing the reply string.  `now` is the single
`time.Now()` instant of the executed branch, in nanoseconds; the EXPIRE
offset is `goDur seconds` (`time.Duration(seconds) * time.Second`, an int64
product that wraps); the TTL reply truncates `Duration.Seconds()`, a
float64 computation modelled exactly by `goSeconds`. -/
def dispatch (matchFn : String → String → Bool) (now : Int) (cmd : String)
    (cmdArgs : List String) (store : Store) (ttl : TTLStore) :
    String × Store × TTLStore :=
  match toUpperStr cmd with
  | "SET" =>
    if cmdArgs.length ≠ 2 then
      (EncodeError (GenericErrorPrefix ++ " usage: SET key value"), store, ttl)
    else
      (EncodeSimpleString ReturnOK,
        store.Set (cmdArgs.getD 0 "") (cmdArgs.getD 1 ""), ttl)
  | "GET" =>
    if cmdArgs.length ≠ 1 then
      (EncodeError (GenericErrorPrefix ++ " usage: GET key"), store, ttl)
    else
      match store.Get (cmdArgs.getD 0 "") with
      | none => (EncodeNullBulkString, store, ttl)
      | some val => (EncodeBulkString val, store, ttl)
  | "DEL" =>
    if cmdArgs.length ≠ 1 then
      (EncodeError (GenericErrorPrefix ++ " usage: DEL key"), store, ttl)
    else
      let d := store.Delete (cmdArgs.getD 0 "")
      if d.1 then (EncodeSimpleString ReturnOK, d.2, ttl)
      else (EncodeNullBulkString, d.2, ttl)
  | "KEYS" =>
    if cmdArgs.length ≠ 1 then
      (EncodeError (GenericErrorPrefix ++ " usage: KEYS pattern"), store, ttl)
    else
      let m := Store.Match matchFn store (cmdArgs.getD 0 "")
      if m.2 then (EncodeArray m.1, store, ttl)
      else (EncodeNullBulkString, store, ttl)
  | "EXPIRE" =>
    if cmdArgs.length ≠ 2 then
      (EncodeError (GenericErrorPrefix ++ " usage: EXPIRE key seconds"), store, ttl)
    else
      match goAtoi (cmdArgs.getD 1 "").data with
      | none =>
        (EncodeError (GenericErrorPrefix ++ " invalid seconds value: " ++
          cmdArgs.getD 1 ""), store, ttl)
      | some seconds =>
        if seconds < 0 then
          (EncodeError (GenericErrorPrefix ++ " invalid seconds value: " ++
            cmdArgs.getD 1 ""), store, ttl)
        else
          match store.Get (cmdArgs.getD 0 "") with
          | none => (EncodeInteger 0, store, ttl)
          | some _ =>
            (EncodeInteger 1, store,
              SetTTL ttl (cmdArgs.getD 0 "") (now + goDur seconds))
  | "TTL" =>
    if cmdArgs.length ≠ 1 then
      (EncodeError (GenericErrorPrefix ++ " usage: TTL key"), store, ttl)
    else
      match store.Get (cmdArgs.getD 0 "") with
      | none => (EncodeInteger (-2), store, ttl)
      | some _ =>
        match GetTTL ttl (cmdArgs.getD 0 "") with
        | none => (EncodeInteger (-1), store, ttl)
        | some expiresAt =>
          if goSeconds (expiresAt - now) < 0 then (EncodeInteger 0, store, ttl)
          else (EncodeInteger (ratTrunc (goSeconds (expiresAt - now))), store, ttl)
  | "FLUSHALL" =>
    if cmdArgs.length ≠ 0 then
      (EncodeError (GenericErrorPrefix ++ " usage: FLUSHALL"), store, ttl)
    else
      (EncodeSimpleString ReturnOK, store.FlushAll, FlushAll ttl)
  | "PING" => ("PONG", store, ttl)
  | "COMMAND" =>
    if cmdArgs.length ≠ 0 then
      (EncodeError (GenericErrorPrefix ++ " usage: COMMAND"), store, ttl)
    else
      (EncodeArrayMixed commandsTable, store, ttl)
  | _ => (EncodeError (GenericErrorPrefix ++ " unknown command: " ++ cmd), store, ttl)

/-! ### Branch-unfolding equations for the dispatcher -/

theorem dispatch_SET (matchFn : String → String → Bool) (now : Int)
    (args : List String) (st : Store) (ttl : TTLStore) :
    dispatch matchFn now "SET" args st ttl =
      if args.length ≠ 2 then
        (EncodeError (GenericErrorPrefix ++ " usage: SET key value"), st, ttl)
      else
        (EncodeSimpleString ReturnOK, st.Set (args.getD 0 "") (args.getD 1 ""), ttl) :=
  rfl

theorem dispatch_GET (matchFn : String → String → Bool) (now : Int)
    (args : List String) (st : Store) (ttl : TTLStore) :
    dispatch matchFn now "GET" args st ttl =
      if args.length ≠ 1 then
        (EncodeError (GenericErrorPrefix ++ " usage: GET key"), st, ttl)
      else
        match st.Get (args.getD 0 "") with
        | none => (EncodeNullBulkString, st, ttl)
        | some val => (EncodeBulkString val, st, ttl) :=
  rfl

theorem dispatch_DEL (matchFn : String → String → Bool) (now : Int)
    (args : List String) (st : Store) (ttl : TTLStore) :
    dispatch matchFn now "DEL" args st ttl =
      if args.length ≠ 1 then
        (EncodeError (GenericErrorPrefix ++ " usage: DEL key"), st, ttl)
      else
        let d := st.Delete (args.getD 0 "")
        if d.1 then (EncodeSimpleString ReturnOK, d.2, ttl)
        else (EncodeNullBulkString, d.2, ttl) :=
  rfl

theorem dispatch_KEYS (matchFn : String → String → Bool) (now : Int)
    (args : List String) (st : Store) (ttl : TTLStore) :
    dispatch matchFn now "KEYS" args st ttl =
      if args.length ≠ 1 then
        (EncodeError (GenericErrorPrefix ++ " usage: KEYS pattern"), st, ttl)
      else
        let m := Store.Match matchFn st (args.getD 0 "")
        if m.2 then (EncodeArray m.1, st, ttl)
        else (EncodeNullBulkString, st, ttl) :=
  rfl

theorem dispatch_EXPIRE (matchFn : String → String → Bool) (now : Int)
    (args : List String) (st : Store) (ttl : TTLStore) :
    dispatch matchFn now "EXPIRE" args st ttl =
      if args.length ≠ 2 then
        (EncodeError (GenericErrorPrefix ++ " usage: EXPIRE key seconds"), st, ttl)
      else
        match goAtoi (args.getD 1 "").data with
        | none =>
          (EncodeError (GenericErrorPrefix ++ " invalid seconds value: " ++
            args.getD 1 ""), st, ttl)
        | some seconds =>
          if seconds < 0 then
            (EncodeError (GenericErrorPrefix ++ " invalid seconds value: " ++
              args.getD 1 ""), st, ttl)
          else
            match st.Get (args.getD 0 "") with
            | none => (EncodeInteger 0, st, ttl)
            | some _ =>
              (EncodeInteger 1, st,
                SetTTL ttl (args.getD 0 "") (now + goDur seconds)) :=
  rfl

theorem dispatch_TTLcmd (matchFn : String → String → Bool) (now : Int)
    (args : List String) (st : Store) (ttl : TTLStore) :
    dispatch matchFn now "TTL" args st ttl =
      if args.length ≠ 1 then
        (EncodeError (GenericErrorPrefix ++ " usage: TTL key"), st, ttl)
      else
        match st.Get (args.getD 0 "") with
        | none => (EncodeInteger (-2), st, ttl)
        | some _ =>
          match GetTTL ttl (args.getD 0 "") with
          | none => (EncodeInteger (-1), st, ttl)
          | some expiresAt =>
            if goSeconds (expiresAt - now) < 0 then (EncodeInteger 0, st, ttl)
            else (EncodeInteger (ratTrunc (goSeconds (expiresAt - now))), st, ttl) :=
  rfl

theorem dispatch_FLUSHALL (matchFn : String → String → Bool) (now : Int)
    (args : List String) (st : Store) (ttl : TTLStore) :
    dispatch matchFn now "FLUSHALL" args st ttl =
      if args.length ≠ 0 then
        (EncodeError (GenericErrorPrefix ++ " usage: FLUSHALL"), st, ttl)
      else
        (EncodeSimpleString ReturnOK, st.FlushAll, FlushAll ttl) :=
  rfl

theorem dispatch_PING (matchFn : String → String → Bool) (now : Int)
    (args : List String) (st : Store) (ttl : TTLStore) :
    dispatch matchFn now "PING" args st ttl = ("PONG", st, ttl) :=
  rfl

theorem dispatch_COMMAND (matchFn : String → String → Bool) (now : Int)
    (args : List String) (st : Store) (ttl : TTLStore) :
    dispatch matchFn now "COMMAND" args st ttl =
      if args.length ≠ 0 then
        (EncodeError (GenericErrorPrefix ++ " usage: COMMAND"), st, ttl)
      else
        (EncodeArrayMixed commandsTable, st, ttl) :=
  rfl

/-! ### Claims C2, C3, C4, C5 -/

/-- Claim C2 (code bug in the source): the dispatcher's PING reply is the raw
four-byte string `"PONG"`, not the simple-status encoding `"+PONG\r\n"` the
spec prescribes -- the `PING` branch returns `"PONG"` without
`EncodeSimpleString`, unlike every other branch, which RESP-encodes its
reply. -/
theorem claim_C2_ping_reply_unframed :
    (dispatch (fun _ _ => false) 0 "PING" [] initStore initTTL).1 = "PONG" ∧
    EncodeSimpleString "PONG" = "+PONG\r\n" ∧
    (dispatch (fun _ _ => false) 0 "PING" [] initStore initTTL).1 ≠ "+PONG\r\n" := by
  exact ⟨by decide, by decide, by decide⟩

/-- Claim C3, counterexample: PING with a wrong-arity argument list does not
return an error reply naming the correct usage -- it returns the raw
`"PONG"` (every error reply produced by `EncodeError` starts with `'-'`;
this reply starts with `'P'`). -/
theorem claim_C3_counterexample :
    (dispatch (fun _ _ => false) 0 "PING" ["extra"] initStore initTTL).1 = "PONG" ∧
    (dispatch (fun _ _ => false) 0 "PING" ["extra"] initStore initTTL).1.data.head? ≠
      some '-' := by
  exact ⟨by decide, by decide⟩

/-- Claim C3 (amended): every supported verb except PING returns, for every
argument list whose length differs from its fixed arity, an error reply
naming the correct usage; the PING branch performs no arity check and
replies `"PONG"` for every argument list. -/
theorem claim_C3_arity_errors (matchFn : String → String → Bool) (now : Int)
    (args : List String) (st : Store) (ttl : TTLStore) :
    (args.length ≠ 2 → (dispatch matchFn now "SET" args st ttl).1 =
      EncodeError (GenericErrorPrefix ++ " usage: SET key value")) ∧
    (args.length ≠ 1 → (dispatch matchFn now "GET" args st ttl).1 =
      EncodeError (GenericErrorPrefix ++ " usage: GET key")) ∧
    (args.length ≠ 1 → (dispatch matchFn now "DEL" args st ttl).1 =
      EncodeError (GenericErrorPrefix ++ " usage: DEL key")) ∧
    (args.length ≠ 1 → (dispatch matchFn now "KEYS" args st ttl).1 =
      EncodeError (GenericErrorPrefix ++ " usage: KEYS pattern")) ∧
    (args.length ≠ 2 → (dispatch matchFn now "EXPIRE" args st ttl).1 =
      EncodeError (GenericErrorPrefix ++ " usage: EXPIRE key seconds")) ∧
    (args.length ≠ 1 → (dispatch matchFn now "TTL" args st ttl).1 =
      EncodeError (GenericErrorPrefix ++ " usage: TTL key")) ∧
    (args.length ≠ 0 → (dispatch matchFn now "FLUSHALL" args st ttl).1 =
      EncodeError (GenericErrorPrefix ++ " usage: FLUSHALL")) ∧
    (args.length ≠ 0 → (dispatch matchFn now "COMMAND" args st ttl).1 =
      EncodeError (GenericErrorPrefix ++ " usage: COMMAND")) ∧
    (dispatch matchFn now "PING" args st ttl).1 = "PONG" := by
  refine ⟨?_, ?_, ?_, ?_, ?_, ?_, ?_, ?_, ?_⟩
  · intro h
    rw [dispatch_SET, if_pos h]
  · intro h
    rw [dispatch_GET, if_pos h]
  · intro h
    rw [dispatch_DEL, if_pos h]
  · intro h
    rw [dispatch_KEYS, if_pos h]
  · intro h
    rw [dispatch_EXPIRE, if_pos h]
  · intro h
    rw [dispatch_TTLcmd, if_pos h]
  · intro h
    rw [dispatch_FLUSHALL, if_pos h]
  · intro h
    rw [dispatch_COMMAND, if_pos h]
  · rw [dispatch_PING]

/-- Witness for the amended C3 at a concrete wrong-arity call. -/
theorem claim_C3_witness :
    (dispatch (fun _ _ => false) 0 "SET" [] initStore initTTL).1 =
      EncodeError (GenericErrorPrefix ++ " usage: SET key value") :=
  (claim_C3_arity_errors (fun _ _ => false) 0 [] initStore initTTL).1 (by decide)

/-- Claim C4 (amended): the TTL command with one argument replies `-2` when
the key is absent from the store, `-1` when the key exists but no TTL entry
is registered, `0` when the registered entry's remaining time is ≤ 0, and
otherwise the truncation of the float64 `Duration.Seconds()` value of the
remaining nanoseconds -- which equals the floor of the remaining seconds for
every remaining time under 2^24 seconds (about 194 days) but can exceed that
floor by one beyond it (see the counterexample). -/
theorem claim_C4_ttl_semantics (matchFn : String → String → Bool) (now : Int)
    (k : String) (st : Store) (ttl : TTLStore) :
    (st.Get k = none →
      (dispatch matchFn now "TTL" [k] st ttl).1 = EncodeInteger (-2)) ∧
    (∀ v, st.Get k = some v → GetTTL ttl k = none →
      (dispatch matchFn now "TTL" [k] st ttl).1 = EncodeInteger (-1)) ∧
    (∀ v e, st.Get k = some v → GetTTL ttl k = some e →
      -9223372036854775808 ≤ e - now → e - now ≤ 0 →
      (dispatch matchFn now "TTL" [k] st ttl).1 = EncodeInteger 0) ∧
    (∀ v e, st.Get k = some v → GetTTL ttl k = some e → 0 < e - now →
      e - now < 16777216000000000 →
      (dispatch matchFn now "TTL" [k] st ttl).1 =
        EncodeInteger ((e - now) / 1000000000)) := by
  have hlen : ¬([k].length ≠ 1) := fun h => h rfl
  refine ⟨?_, ?_, ?_, ?_⟩
  · intro hget
    rw [dispatch_TTLcmd, if_neg hlen]
    show ((match st.Get k with
      | none => (EncodeInteger (-2), st, ttl)
      | some _ => _) : String × Store × TTLStore).1 = _
    rw [hget]
  · intro v hget httl
    rw [dispatch_TTLcmd, if_neg hlen]
    show ((match st.Get k with
      | none => (EncodeInteger (-2), st, ttl)
      | some _ => _) : String × Store × TTLStore).1 = _
    rw [hget]
    show ((match GetTTL ttl k with
      | none => (EncodeInteger (-1), st, ttl)
      | some _ => _) : String × Store × TTLStore).1 = _
    rw [httl]
  · intro v e hget httl hlo hrem
    rw [dispatch_TTLcmd, if_neg hlen]
    show ((match st.Get k with
      | none => (EncodeInteger (-2), st, ttl)
      | some _ => _) : String × Store × TTLStore).1 = _
    rw [hget]
    show ((match GetTTL ttl k with
      | none => (EncodeInteger (-1), st, ttl)
      | some _ => _) : String × Store × TTLStore).1 = _
    rw [httl]
    show ((if goSeconds (e - now) < 0 then (EncodeInteger 0, st, ttl)
      else (EncodeInteger (ratTrunc (goSeconds (e - now))), st, ttl)).1 : String) = _
    rcases lt_or_eq_of_le hrem with hlt | heq
    · rw [if_pos (goSeconds_negative _ hlt hlo)]
    · rw [heq, goSeconds_zero, if_neg (lt_irrefl 0), ratTrunc_zero]
  · intro v e hget httl hpos hbound
    rw [dispatch_TTLcmd, if_neg hlen]
    show ((match st.Get k with
      | none => (EncodeInteger (-2), st, ttl)
      | some _ => _) : String × Store × TTLStore).1 = _
    rw [hget]
    show ((match GetTTL ttl k with
      | none => (EncodeInteger (-1), st, ttl)
      | some _ => _) : String × Store × TTLStore).1 = _
    rw [httl]
    show ((if goSeconds (e - now) < 0 then (EncodeInteger 0, st, ttl)
      else (EncodeInteger (ratTrunc (goSeconds (e - now))), st, ttl)).1 : String) = _
    obtain ⟨hfloor, hnn⟩ := goSeconds_floor (e - now) hpos hbound
    rw [if_neg (not_lt.mpr hnn), hfloor]

set_option maxRecDepth 100000 in
unseal Rat.mul Rat.add Rat.sub Rat.inv in
/-- Claim C4, counterexample to the unamended floor semantics: with an entry
whose remaining time is 2^24 seconds plus 999999999 ns, the float64 sum
inside `Duration.Seconds()` rounds up to 16777217.0, so the reply encodes
16777217 where the floor of the remaining seconds is 16777216. -/
theorem claim_C4_counterexample :
    (dispatch (fun _ _ => false) 0 "TTL" ["k"] (Store.mk [("k", "v")])
        (SetTTL initTTL "k" 16777216999999999)).1 = EncodeInteger 16777217 ∧
    ratTrunc (goSeconds 16777216999999999) = 16777217 ∧
    (16777216999999999 : Int) / 1000000000 = 16777216 ∧
    ((16777217 : Int) ≠ 16777216) := by
  refine ⟨?_, by decide, by decide, by decide⟩
  rfl

/-- Witness for C4 at a concrete absent key. -/
theorem claim_C4_witness :
    (dispatch (fun _ _ => false) 0 "TTL" ["a"] initStore initTTL).1 =
      EncodeInteger (-2) :=
  (claim_C4_ttl_semantics (fun _ _ => false) 0 "a" initStore initTTL).1 rfl

/-- Claim C5 (amended): EXPIRE with two arguments rejects non-numeric and
negative seconds with an error reply (store and scheduler untouched); with
the key absent it replies `0` and leaves the scheduler unchanged; otherwise
it schedules an entry expiring at `now + goDur seconds` -- the int64 product
`seconds * 10^9` ns, which equals `now + seconds` for every accepted
`seconds ≤ 9223372036` but wraps into the past for larger accepted values --
and replies `1`; zero seconds is accepted and schedules expiration at `now`
itself. -/
theorem claim_C5_expire_semantics (matchFn : String → String → Bool) (now : Int)
    (k sArg : String) (st : Store) (ttl : TTLStore) :
    (goAtoi sArg.data = none →
      dispatch matchFn now "EXPIRE" [k, sArg] st ttl =
        (EncodeError (GenericErrorPrefix ++ " invalid seconds value: " ++ sArg),
          st, ttl)) ∧
    (∀ n, goAtoi sArg.data = some n → n < 0 →
      dispatch matchFn now "EXPIRE" [k, sArg] st ttl =
        (EncodeError (GenericErrorPrefix ++ " invalid seconds value: " ++ sArg),
          st, ttl)) ∧
    (∀ n, goAtoi sArg.data = some n → 0 ≤ n → st.Get k = none →
      dispatch matchFn now "EXPIRE" [k, sArg] st ttl = (EncodeInteger 0, st, ttl)) ∧
    (∀ n v, goAtoi sArg.data = some n → 0 ≤ n → st.Get k = some v →
      dispatch matchFn now "EXPIRE" [k, sArg] st ttl =
        (EncodeInteger 1, st, SetTTL ttl k (now + goDur n))) ∧
    (∀ v, goAtoi sArg.data = some 0 → st.Get k = some v →
      dispatch matchFn now "EXPIRE" [k, sArg] st ttl =
        (EncodeInteger 1, st, SetTTL ttl k now)) ∧
    (∀ n, 0 ≤ n → n ≤ 9223372036 → goDur n = n * 1000000000) := by
  have hlen : ¬([k, sArg].length ≠ 2) := fun h => h rfl
  have step : dispatch matchFn now "EXPIRE" [k, sArg] st ttl =
      match goAtoi sArg.data with
      | none =>
        (EncodeError (GenericErrorPrefix ++ " invalid seconds value: " ++ sArg),
          st, ttl)
      | some seconds =>
        if seconds < 0 then
          (EncodeError (GenericErrorPrefix ++ " invalid seconds value: " ++ sArg),
            st, ttl)
        else
          match st.Get k with
          | none => (EncodeInteger 0, st, ttl)
          | some _ =>
            (EncodeInteger 1, st, SetTTL ttl k (now + goDur seconds)) := by
    rw [dispatch_EXPIRE, if_neg hlen]
    rfl
  refine ⟨?_, ?_, ?_, ?_, ?_, ?_⟩
  · intro hA
    rw [step, hA]
  · intro n hA hneg
    rw [step, hA]
    show (if n < 0 then _ else _) = _
    rw [if_pos hneg]
  · intro n hA hpos hget
    rw [step, hA]
    show (if n < 0 then _ else _) = _
    rw [if_neg (by omega)]
    show (match st.Get k with
      | none => (EncodeInteger 0, st, ttl)
      | some _ => (EncodeInteger 1, st, SetTTL ttl k (now + goDur n))) = _
    rw [hget]
  · intro n v hA hpos hget
    rw [step, hA]
    show (if n < 0 then _ else _) = _
    rw [if_neg (by omega)]
    show (match st.Get k with
      | none => (EncodeInteger 0, st, ttl)
      | some _ => (EncodeInteger 1, st, SetTTL ttl k (now + goDur n))) = _
    rw [hget]
  · intro v hA hget
    rw [step, hA]
    show (if (0 : Int) < 0 then _ else _) = _
    rw [if_neg (by omega)]
    show (match st.Get k with
      | none => (EncodeInteger 0, st, ttl)
      | some _ => (EncodeInteger 1, st, SetTTL ttl k (now + goDur 0))) = _
    rw [hget, show goDur 0 = (0 : Int) from by decide]
    norm_num
  · intro n hn0 hn1
    unfold goDur
    exact wrap64_eq_self _ (by omega) (by omega)

/-- Claim C5, counterexample to the unamended schedule: EXPIRE of an
existing key with the accepted seconds value 10000000000 replies `1` but
schedules the int64-wrapped expiration `now - 8446744073709551616` ns --
roughly 267 years in the past -- not `now + 10000000000 * 10^9`. -/
theorem claim_C5_counterexample :
    dispatch (fun _ _ => false) 0 "EXPIRE" ["k", "10000000000"]
        (Store.mk [("k", "v")]) initTTL =
      (EncodeInteger 1, Store.mk [("k", "v")],
        SetTTL initTTL "k" (-8446744073709551616)) ∧
    goDur 10000000000 = -8446744073709551616 ∧
    GetTTL (SetTTL initTTL "k" (-8446744073709551616)) "k" =
      some (-8446744073709551616) ∧
    ((-8446744073709551616 : Int) < 0) ∧
    (0 : Int) + 10000000000 * 1000000000 = 10000000000000000000 ∧
    ((-8446744073709551616 : Int) ≠ (10000000000000000000 : Int)) := by
  refine ⟨rfl, by decide, by decide, by decide, by decide, by decide⟩

/-- Witness for C5: a numeric argument, absent key. -/
theorem claim_C5_witness :
    dispatch (fun _ _ => false) 0 "EXPIRE" ["a", "10"] initStore initTTL =
      (EncodeInteger 0, initStore, initTTL) :=
  (claim_C5_expire_semantics (fun _ _ => false) 0 "a" "10" initStore
    initTTL).2.2.1 10 (by decide) (by decide) rfl

/-! ### Claims C7, C8 and C10 -/

/-- Claim C7 (amended): for every non-empty list of strings with no embedded
CRLF, whose count fits in an int64 and whose element lengths stay at most
9223372036854775805 (one less and the decoder's int64 `length+2` buffer size
wraps and panics), decoding the bytes produced by `EncodeArray` succeeds and
yields the first element as the command name and the remaining elements, in
order, as the arguments. -/
theorem claim_C7_roundtrip (c : String) (a : List String)
    (hcrlf : ∀ s ∈ c :: a, hasCRLF s.data = false)
    (hcount : (c :: a).length ≤ 9223372036854775807)
    (hlens : ∀ s ∈ c :: a, s.length ≤ 9223372036854775805) :
    DecodeCommand ((EncodeArray (c :: a)).data) = .ok c a := by
  have hstar : ("*" : String).data = ['*'] := rfl
  have h2 : ("\r\n" : String).data = ['\r', '\n'] := rfl
  have hform : (EncodeArray (c :: a)).data =
      ('*' :: natDigits (c :: a).length) ++ '\r' :: '\n' :: ((bulksConcat (c :: a)).data ++ []) := by
    simp only [EncodeArray, natStr, data_append, data_mk, hstar, h2]
    simp [List.append_assoc]
  have hnl : '\n' ∉ '*' :: natDigits (c :: a).length := by
    intro h
    rcases List.mem_cons.mp h with h1 | h1
    · exact absurd h1 (by decide)
    · exact natDigits_no_nl _ h1
  rw [hform]
  show DecodeCommand _ = _
  simp only [DecodeCommand]
  rw [readLine_encoded _ _ hnl]
  show (match goAtoi (natDigits (c :: a).length) with
    | none => DecodeResult.fail (DecErr.badArrayLen ('*' :: natDigits (c :: a).length))
    | some count =>
      if count < 1 then DecodeResult.fail DecErr.tooFewElements
      else
        match decodeBulks count.toNat ((bulksConcat (c :: a)).data ++ []) with
        | BulksResult.ok parts _ =>
          match parts with
          | [] => DecodeResult.fail DecErr.tooFewElements
          | c :: a => DecodeResult.ok c a
        | BulksResult.fail e => DecodeResult.fail e
        | BulksResult.panicked l => DecodeResult.panicked l) = _
  rw [goAtoi_natDigits _ hcount]
  show (if (((c :: a).length : Nat) : Int) < 1 then DecodeResult.fail DecErr.tooFewElements
    else
      match decodeBulks ((((c :: a).length : Nat) : Int)).toNat ((bulksConcat (c :: a)).data ++ []) with
      | BulksResult.ok parts _ =>
        match parts with
        | [] => DecodeResult.fail DecErr.tooFewElements
        | c :: a => DecodeResult.ok c a
      | BulksResult.fail e => DecodeResult.fail e
      | BulksResult.panicked l => DecodeResult.panicked l) = _
  rw [if_neg (show ¬((((c :: a).length : Nat) : Int) < 1) from by
    rw [List.length_cons]; omega)]
  have htN : ((((c :: a).length : Nat) : Int)).toNat = (c :: a).length := by omega
  rw [htN, decodeBulks_encodeList (c :: a) [] hlens]

/-- Helper for the C7 counterexample, with the element length kept symbolic:
decoding the encoding of a single replicate-string whose length makes the
decoder's int64 `length+2` wrap ends in a panic carrying that length. -/
theorem bigRoundtripFails (N : Nat) (h1 : 9223372036854775805 < N)
    (h2 : N ≤ 9223372036854775807) :
    DecodeCommand ((EncodeArray [String.mk (List.replicate N 'a')]).data) =
      .panicked (N : Int) := by
  have hslen : (String.mk (List.replicate N 'a')).length = N := by
    show (List.replicate N 'a').length = N
    exact List.length_replicate _ _
  have hstar : ("*" : String).data = ['*'] := rfl
  have hcrlf2 : ("\r\n" : String).data = ['\r', '\n'] := rfl
  have hform : (EncodeArray [String.mk (List.replicate N 'a')]).data =
      ('*' :: natDigits ([String.mk (List.replicate N 'a')] : List String).length) ++
        '\r' :: '\n' :: ((bulksConcat [String.mk (List.replicate N 'a')]).data ++ []) := by
    simp only [EncodeArray, natStr, data_append, data_mk, hstar, hcrlf2]
    simp [List.append_assoc]
  have hnl : '\n' ∉ '*' :: natDigits ([String.mk (List.replicate N 'a')] : List String).length := by
    intro h
    rcases List.mem_cons.mp h with h1 | h1
    · exact absurd h1 (by decide)
    · exact natDigits_no_nl _ h1
  rw [hform]
  show DecodeCommand _ = _
  simp only [DecodeCommand]
  rw [readLine_encoded _ _ hnl]
  show (match goAtoi (natDigits ([String.mk (List.replicate N 'a')] : List String).length) with
    | none => DecodeResult.fail (DecErr.badArrayLen
        ('*' :: natDigits ([String.mk (List.replicate N 'a')] : List String).length))
    | some count =>
      if count < 1 then DecodeResult.fail DecErr.tooFewElements
      else
        match decodeBulks count.toNat
            ((bulksConcat [String.mk (List.replicate N 'a')]).data ++ []) with
        | BulksResult.ok parts _ =>
          match parts with
          | [] => DecodeResult.fail DecErr.tooFewElements
          | c :: a => DecodeResult.ok c a
        | BulksResult.fail e => DecodeResult.fail e
        | BulksResult.panicked l => DecodeResult.panicked l) = _
  rw [goAtoi_natDigits _
    (show ([String.mk (List.replicate N 'a')] : List String).length ≤ 9223372036854775807 by
      norm_num)]
  show (if ((([String.mk (List.replicate N 'a')] : List String).length : Nat) : Int) < 1 then
      DecodeResult.fail DecErr.tooFewElements
    else
      match decodeBulks (((([String.mk (List.replicate N 'a')] : List String).length : Nat) : Int)).toNat
          ((bulksConcat [String.mk (List.replicate N 'a')]).data ++ []) with
      | BulksResult.ok parts _ =>
        match parts with
        | [] => DecodeResult.fail DecErr.tooFewElements
        | c :: a => DecodeResult.ok c a
      | BulksResult.fail e => DecodeResult.fail e
      | BulksResult.panicked l => DecodeResult.panicked l) = _
  rw [if_neg (show ¬((([String.mk (List.replicate N 'a')] : List String).length : Int) < 1) by
    norm_num)]
  have htN : ((([String.mk (List.replicate N 'a')] : List String).length : Int)).toNat =
      ([String.mk (List.replicate N 'a')] : List String).length := by
    norm_num
  rw [htN, bulksConcat_data_cons]
  rw [show ([String.mk (List.replicate N 'a')] : List String).length = 0 + 1 from rfl]
  rw [decodeBulks_cons_panic 0 (String.mk (List.replicate N 'a')) _
    (by rw [hslen]; exact h1) (by rw [hslen]; exact h2)]
  show DecodeResult.panicked (((String.mk (List.replicate N 'a')).length : Nat) : Int) = _
  rw [hslen]

/-- Claim C7, counterexample to the unamended bound: a single-element list
whose element has 9223372036854775806 bytes and no CRLF satisfies the
original int64 hypotheses (length ≤ 9223372036854775807), yet decoding its
encoding panics -- the decoder's `make([]byte, length+2)` wraps int64 --
instead of returning the list. -/
theorem claim_C7_counterexample :
    (∀ s ∈ [bigStr], hasCRLF s.data = false) ∧
    ([bigStr] : List String).length ≤ 9223372036854775807 ∧
    (∀ s ∈ [bigStr], s.length ≤ 9223372036854775807) ∧
    DecodeCommand ((EncodeArray [bigStr]).data) = .panicked 9223372036854775806 ∧
    (∀ (c : String) (a : List String),
      DecodeResult.panicked 9223372036854775806 ≠ .ok c a) := by
  have hlen : bigStr.length = 9223372036854775806 := by
    show (List.replicate 9223372036854775806 'a').length = _
    exact List.length_replicate _ _
  refine ⟨?_, ?_, ?_, ?_, ?_⟩
  · intro s hs
    rw [List.mem_singleton] at hs
    subst hs
    show hasCRLF (List.replicate 9223372036854775806 'a') = false
    exact hasCRLF_replicate_a _
  · show (1 : Nat) ≤ 9223372036854775807
    norm_num
  · intro s hs
    rw [List.mem_singleton] at hs
    subst hs
    rw [hlen]
    norm_num
  · have h := bigRoundtripFails 9223372036854775806 (by norm_num) (by norm_num)
    rw [show ((9223372036854775806 : Nat) : Int) = (9223372036854775806 : Int) by norm_num] at h
    exact h
  · intro c a h
    exact DecodeResult.noConfusion h

/-- Claim C8: decoding a frame whose array-header count parses to a value
less than 1 -- including the null-array encoding `*-1\r\n` and the
empty-array encoding `*0\r\n` -- fails with the single
`command must contain at least one element` decode error, not two distinct
behaviours. -/
theorem claim_C8_low_count :
    (∀ (line rest : List Char) (n : Int), goAtoi line = some n → n < 1 → '\n' ∉ line →
       DecodeCommand (('*' :: line) ++ '\r' :: '\n' :: rest) = .fail .tooFewElements) ∧
    DecodeCommand ("*-1\r\n").data = .fail .tooFewElements ∧
    DecodeCommand ("*0\r\n").data = .fail .tooFewElements ∧
    DecErr.message .tooFewElements = "command must contain at least one element" := by
  refine ⟨?_, by decide, by decide, rfl⟩
  intro line rest n hgo hn hnlline
  have hnl : '\n' ∉ '*' :: line := by
    intro h
    rcases List.mem_cons.mp h with h1 | h1
    · exact absurd h1 (by decide)
    · exact hnlline h1
  show DecodeCommand _ = _
  simp only [DecodeCommand]
  rw [readLine_encoded _ _ hnl]
  show (match goAtoi line with
    | none => DecodeResult.fail (DecErr.badArrayLen ('*' :: line))
    | some count =>
      if count < 1 then DecodeResult.fail DecErr.tooFewElements
      else
        match decodeBulks count.toNat rest with
        | BulksResult.ok parts _ =>
          match parts with
          | [] => DecodeResult.fail DecErr.tooFewElements
          | c :: a => DecodeResult.ok c a
        | BulksResult.fail e => DecodeResult.fail e
        | BulksResult.panicked l => DecodeResult.panicked l) = _
  rw [hgo]
  show (if n < 1 then DecodeResult.fail DecErr.tooFewElements
    else
      match decodeBulks n.toNat rest with
      | BulksResult.ok parts _ =>
        match parts with
        | [] => DecodeResult.fail DecErr.tooFewElements
        | c :: a => DecodeResult.ok c a
      | BulksResult.fail e => DecodeResult.fail e
      | BulksResult.panicked l => DecodeResult.panicked l) = _
  rw [if_pos hn]

/-- Claim C10, counterexample to the original totality half: the well-formed
frame `*1\r\n$9223372036854775806\r\n` carries a non-negative bulk length,
yet `DecodeCommand` panics -- the int64 buffer size `length+2` computed for
`make` wraps negative -- instead of returning a command or an error. -/
theorem claim_C10_counterexample :
    DecodeCommand ("*1\r\n$9223372036854775806\r\n").data =
      .panicked 9223372036854775806 ∧
    (0 : Int) ≤ 9223372036854775806 :=
  ⟨by decide, by decide⟩

/-- Claim C10 (amended): `DecodeCommand` is not total at its public
interface: the well-formed frame `*1\r\n$-1\r\n\r\n` panics at the
`buf[:length]` slice with its negative parsed length -1; moreover every
panic of `DecodeCommand` carries a parsed bulk length that is negative or
greater than 9223372036854775805 (where the int64 `length+2` buffer size of
`make` wraps), so every input whose bulk lengths lie within
[0, 9223372036854775805] returns a decoded command or an error. -/
theorem claim_C10_negative_length_panic :
    DecodeCommand ("*1\r\n$-1\r\n\r\n").data = .panicked (-1) ∧
    ∀ (input : List Char) (len : Int), DecodeCommand input = .panicked len →
      len < 0 ∨ 9223372036854775805 < len :=
  ⟨by decide, fun input len h => DecodeCommand_panicked input len h⟩

theorem claim_C7_witness :
    (∀ s ∈ ["PING"], hasCRLF s.data = false) ∧
    (["PING"] : List String).length ≤ 9223372036854775807 ∧
    (∀ s ∈ ["PING"], s.length ≤ 9223372036854775805) ∧
    DecodeCommand ((EncodeArray ["PING"]).data) = .ok "PING" [] :=
  ⟨by decide, by decide, by decide,
   claim_C7_roundtrip "PING" [] (by decide) (by decide) (by decide)⟩

theorem claim_C8_witness :
    goAtoi ("-5").data = some (-5) ∧ ((-5 : Int) < 1) ∧ '\n' ∉ ("-5").data ∧
    DecodeCommand (('*' :: ("-5").data) ++ '\r' :: '\n' :: []) = .fail .tooFewElements :=
  ⟨by decide, by decide, by decide,
   claim_C8_low_count.1 ("-5").data [] (-5) (by decide) (by decide) (by decide)⟩

theorem claim_C10_witness :
    DecodeCommand ("*1\r\n$-1\r\n\r\n").data = .panicked (-1) ∧
    ((-1 : Int) < 0 ∨ 9223372036854775805 < (-1 : Int)) :=
  ⟨claim_C10_negative_length_panic.1,
   claim_C10_negative_length_panic.2 _ (-1) claim_C10_negative_length_panic.1⟩


end Goradieschen
